import Mathlib

/-!
# Packed words: shallow embedding of `packed_words.py`

A *packed word* is a finite sequence of positive integers whose set of
distinct values is a gap-free initial interval `{1, …, max}`.  This file
embeds the operations of the packed-words library as executable Lean
functions — validation, the pack/standardization map, global descents and
ascents with their factorizations, the plain and "left" labelled-forest
codecs, value insertion (`upgrade_max`, `upgrade_last`), inversion sets,
and the one-step successor/predecessor maps of the right and left weak
orders — and proves the specified properties about them.

Conventions of the embedding:
* Python lists of positive integers become `List Nat`; the construction
  validator, which must also reject non-positive entries, takes `List Int`.
* Python `ValueError`s become `Except PWErr` results; the constructors of
  `PWErr` record which conceptual error kind the message corresponds to,
  with a payload exactly when the Python message interpolates the data.
* The recursive tree encoders/decoders recurse on sub-lists produced by
  the global-descents factorization (not structurally), so they are
  written with an explicit fuel argument; the public wrappers supply fuel
  that provably suffices (`length` of the word, `sizeOf` of the tree), so
  the fuel-exhausted branches are unreachable on every input.
-/

namespace PackedWords

/-- Labelled ordered tree (the Sage `LabelledOrderedTree`): an ordered list
of subtrees together with a label. -/
inductive LTree (α : Type) where
  | node : List (LTree α) → α → LTree α

/-- The label of a labelled ordered tree (`t.label()`). -/
def LTree.label : LTree α → α
  | .node _ a => a

/-- The list of children of a labelled ordered tree (`[x for x in t]`). -/
def LTree.children : LTree α → List (LTree α)
  | .node cs _ => cs

/-- Number of nodes of a labelled ordered tree; used as a fuel bound for
the decoders. -/
def LTree.size : LTree α → Nat
  | .node cs _ => 1 + (cs.attach.map (fun x => LTree.size x.1)).sum
decreasing_by
  have := List.sizeOf_lt_of_mem x.2
  simp only [LTree.node.sizeOf_spec]
  omega

/-- Trees of the plain codec: label `(cut, list of positions)`. -/
abbrev PTree := LTree (Nat × List Nat)

/-- Trees of the left-variant codec: label `(cut, (value, seen))`. -/
abbrev LTreeL := LTree (Nat × (Nat × Bool))

/-- The conceptual error kinds of the library (each `ValueError` site).
A constructor carries the offending data exactly when the corresponding
Python message interpolates it into the message text. -/
inductive PWErr where
  /-- `"{} is not a list of positive integers"` — interpolates the sequence. -/
  | notPositiveList (s : List Int)
  /-- the value-contiguity failure; its message has no format placeholder,
  so it reports no data. -/
  | missingLowerValue
  /-- `upgrade_max`: `"The list must have at least one element."` -/
  | emptyInsertionList
  /-- `upgrade_max`: the unordered-list and the length-mismatch messages. -/
  | positionMismatch
  /-- a bare `raise ValueError` (in `is_particular` on the empty word). -/
  | bareValueError
  /-- artifact of the fuel encoding; unreachable from the public wrappers. -/
  | fuelOut
deriving DecidableEq, Repr

/-- The `side` selector; the library only ever dispatches on these two
values, so we embed it as an enumeration. -/
inductive Side where
  | right
  | left
deriving DecidableEq, Repr

/-- `self._max`: `0 if not lst else max(lst)`. -/
def maxL (w : List Nat) : Nat := w.foldr max 0

/-- Python `sorted(set(li))`: the distinct values in increasing order. -/
def sortedDistinct {α : Type} [LinearOrder α] (l : List α) : List α :=
  List.insertionSort (· ≤ ·) l.dedup

/-- `PackedWord.check`: succeed iff every entry is a positive integer and
the sorted distinct values are exactly `1, …, max` (empty allowed). -/
def pwCheck (s : List Int) : Except PWErr Unit :=
  if s.all (fun a => 0 < a) then
    let sd := sortedDistinct s
    if sd = (List.range' 1 (sd.getLastD 0).toNat).map (fun n : Nat => (n : Int)) then .ok ()
    else .error .missingLowerValue
  else .error (.notPositiveList s)

/-- `PackedWords.pack`: replace each entry by one plus its index in the
sorted list of distinct values. -/
def pack (li : List Nat) : List Nat :=
  li.map (fun x => (sortedDistinct li).indexOf x + 1)

/-- `global_descents` (1-based positions; the unused `from_zero`
presentation option is omitted).  Position `i+1` is recorded when the
running minimum of `w[0..i]` (seeded with `max(w)`) exceeds
`max(w[i+1..] + [0])`. -/
def globalDescents (w : List Nat) (finalDescent : Bool) : List Nat :=
  (((List.range (w.length - 1)).filter
      (fun i => decide (maxL (w.drop (i + 1)) < (w.take (i + 1)).foldl min (maxL w)))).map
    (· + 1)) ++ (if finalDescent then [w.length] else [])

/-- The inner loop of `global_descents_factorization`: slice `w` between
consecutive descent positions, packing each slice. -/
def gdfSlices (w : List Nat) : Nat → List Nat → List (List Nat)
  | _, [] => []
  | i, j :: rest => pack ((w.drop i).take (j - i)) :: gdfSlices w j rest

/-- `global_descents_factorization`: cut at every global descent (with the
final descent) and pack each block. -/
def globalDescentsFactorization (w : List Nat) : List (List Nat) :=
  match globalDescents w true with
  | [] => [w]
  | i :: rest => pack (w.take i) :: gdfSlices w i rest

/-- `global_ascents` (1-based; the unused `initial_ascent`/`from_zero`
options are omitted).  Position `i+1` is recorded (for `1 ≤ i < n`) when
the running maximum of `w[0..i-1]` is below `min(w[i..] + [max(w)])`. -/
def globalAscents (w : List Nat) : List Nat :=
  if w = [] then []
  else
    ((List.range' 1 (w.length - 1)).filter
        (fun i => decide ((w.take i).foldl max 0 < (w.drop i).foldr min (maxL w)))).map
      (· + 1)

/-- One Python-style list insertion `res[:pos] + [m] + res[pos:]`. -/
def insertAt (res : List Nat) (pos : Nat) (m : Nat) : List Nat :=
  res.take pos ++ m :: res.drop pos

/-- The insertion loop of `upgrade_max`. -/
def insertAll (res : List Nat) (l : List Nat) (m : Nat) : List Nat :=
  l.foldl (fun r pos => insertAt r pos m) res

/-- `upgrade_max`: insert `max(w)+1` at each position of `l` in turn.
Mirrors the source exactly: the empty insertion list fails first; an empty
word skips the ordering/length checks and inserts the value `1`. -/
def upgrade_max (w : List Nat) (l : List Nat) : Except PWErr (List Nat) :=
  if l = [] then .error .emptyInsertionList
  else if w = [] then .ok (insertAll w l 1)
  else if List.insertionSort (· ≤ ·) l ≠ l then .error .positionMismatch
  else if w.length + l.length - 1 < l.getLastD 0 then .error .positionMismatch
  else .ok (insertAll w l (maxL w + 1))

/-- `upgrade_last`: append `val`; when `seen` is false, shift every entry
`≥ val` up by one first. -/
def upgrade_last (w : List Nat) (t : Nat × Bool) : List Nat :=
  (w.map (fun x => if x < t.1 then x else x + (if t.2 then 0 else 1))) ++ [t.1]

/-- `self.index(x)`: index of the first occurrence. -/
def firstOccIdx (w : List Nat) (v : Nat) : Nat := w.indexOf v

/-- `self._size - 1 - self[::-1].index(x)`: index of the last occurrence. -/
def lastOccIdx (w : List Nat) (v : Nat) : Nat := w.length - 1 - w.reverse.indexOf v

/-- `is_particular`: raises on the empty word; size 1 is particular; a word
with a global descent is not; otherwise dispatch on the side. -/
def is_particular (p : List Nat) (side : Side) : Except PWErr Bool :=
  if p = [] then .error .bareValueError
  else if p.length = 1 then .ok true
  else if globalDescents p false ≠ [] then .ok false
  else
    match side with
    | .right =>
      let m := maxL p
      let p_m := p.filter (fun x => x < m)
      if p_m = [] then .ok true
      else .ok (decide (p.indexOf m < (globalDescents p_m true).getD 0 0))
    | .left =>
      let p_m := pack p.dropLast
      if p_m = [] then .ok true
      else .ok (decide (globalDescents p_m false = [] ∧ p.length ∉ globalAscents p))

/-- Right weak order inversions on positions: 1-based pairs `(i+1, j+1)`
with `i < j` and `w i > w j`. -/
def inversions_rp (w : List Nat) : Finset (Nat × Nat) :=
  ((Finset.range w.length ×ˢ Finset.range w.length).filter
      (fun p => p.1 < p.2 ∧ w.getD p.2 0 < w.getD p.1 0)).image
    (fun p => (p.1 + 1, p.2 + 1))

/-- Left weak order inversions on values: pairs `(b, a)` with
`1 ≤ a < b ≤ max` whose first occurrence of `a` is after the last
occurrence of `b`. -/
def inversions_lv (w : List Nat) : Finset (Nat × Nat) :=
  (Finset.range (maxL w + 1) ×ˢ Finset.range (maxL w + 1)).filter
    (fun p => 1 ≤ p.2 ∧ p.2 < p.1 ∧ lastOccIdx w p.1 < firstOccIdx w p.2)

/-- `self[:i] + [self[i+1], self[i]] + self[i+2:]`. -/
def swapAdj (w : List Nat) (i : Nat) : List Nat :=
  w.take i ++ w.getD (i + 1) 0 :: w.getD i 0 :: w.drop (i + 2)

/-- `right_weak_order_succ`: swap each adjacent ascending pair. -/
def right_weak_order_succ (w : List Nat) : List (List Nat) :=
  (List.range (w.length - 1)).filterMap
    (fun i => if w.getD i 0 < w.getD (i + 1) 0 then some (swapAdj w i) else none)

/-- `right_weak_order_pred`: swap each adjacent descending pair. -/
def right_weak_order_pred (w : List Nat) : List (List Nat) :=
  (List.range (w.length - 1)).filterMap
    (fun i => if w.getD (i + 1) 0 < w.getD i 0 then some (swapAdj w i) else none)

/-- Exchange all occurrences of the values `i` and `i+1`. -/
def swapVals (w : List Nat) (i : Nat) : List Nat :=
  w.map (fun x => if x = i then i + 1 else if x = i + 1 then i else x)

/-- `left_weak_order_succ`: for each value `i < max` whose last occurrence
precedes the first occurrence of `i+1`, exchange the values `i`, `i+1`. -/
def left_weak_order_succ (w : List Nat) : List (List Nat) :=
  if w = [] then []
  else
    (List.range' 1 (maxL w - 1)).filterMap
      (fun i => if lastOccIdx w i < firstOccIdx w (i + 1) then some (swapVals w i) else none)

/-- `left_weak_order_pred`: the dual condition and the same exchange. -/
def left_weak_order_pred (w : List Nat) : List (List Nat) :=
  if w = [] then []
  else
    (List.range' 1 (maxL w - 1)).filterMap
      (fun i => if lastOccIdx w (i + 1) < firstOccIdx w i then some (swapVals w i) else none)

/-- `to_ordered_set_partition`: block `j` is the increasing list of 1-based
positions holding the value `j+1`. -/
def to_ordered_set_partition (w : List Nat) : List (List Nat) :=
  (List.range (maxL w)).map
    (fun j => (w.enum.filter (fun p => p.2 = j + 1)).map (fun p => p.1 + 1))

/-- `to_composition`: multiplicities of `1, …, max`. -/
def to_composition (w : List Nat) : List Nat :=
  (List.range (maxL w)).map (fun j => w.count (j + 1))

/-- Modelled from the spec: the external standardization collaborator
`Standardize(sequence) -> Permutation` (spec §6), i.e. Sage `to_standard`,
which is imported by the source rather than defined in it: entry `x` at
position `p` becomes one plus the number of entries smaller than `x` plus
the number of earlier copies of `x`. -/
def to_standard (w : List Nat) : List Nat :=
  w.enum.map (fun p => w.countP (fun y => decide (y < p.2)) + (w.take p.1).count p.2 + 1)

/-- `is_gequal(self, pw, side)`: whether `pw ≤ self` in the chosen weak
order; `false` (never an error) on different equivalence classes. -/
def is_gequal (w pw : List Nat) (side : Side) : Bool :=
  match side with
  | .right =>
    if to_composition w = to_composition pw then
      decide (inversions_lv (to_standard pw) ⊆ inversions_lv (to_standard w))
    else false
  | .left =>
    if (to_ordered_set_partition w).toFinset = (to_ordered_set_partition pw).toFinset then
      decide (inversions_rp pw ⊆ inversions_rp w)
    else false

/-- `is_lequal(self, pw, side) = pw.is_gequal(self, side)`. -/
def is_lequal (w pw : List Nat) (side : Side) : Bool := is_gequal pw w side

/-- Modelled from the spec: the graded breadth-first enumeration of the
external `RecursivelyEnumeratedSet` collaborator (spec §4.7).  Starting
from the current level, iterate `k` levels of `right_weak_order_succ`
(deduplicating each level), keeping the elements `≤ bound`; the source
loop stops at the first element whose inversion count exceeds the bound's,
which on the graded poset is the first element beyond that many levels. -/
def intervalGo (bound : List Nat) : Nat → List (List Nat) → List (List Nat)
  | 0, _ => []
  | k + 1, cur =>
    cur.filter (fun x => is_gequal bound x .right) ++
      intervalGo bound k ((cur.map right_weak_order_succ).flatten.dedup)

/-- `right_weak_order_interval`: enumerate upward from the smaller word,
bounded by the inversion count of the larger; empty when incomparable. -/
def right_weak_order_interval (w other : List Nat) : List (List Nat) :=
  if is_gequal w other .right then
    intervalGo w ((inversions_rp w).card - (inversions_rp other).card + 1) [other]
  else if is_gequal other w .right then
    intervalGo other ((inversions_rp other).card - (inversions_rp w).card + 1) [w]
  else []

/-- 0-based positions of the value `m` (`[i for i, x in enumerate(w) if x == m]`). -/
def positionsOf (w : List Nat) (m : Nat) : List Nat :=
  (w.enum.filter (fun p => p.2 = m)).map (fun p => p.1)

/-- The `cut`/`s` while-loop of the plain tree encoder: advance through the
remaining factor lengths while `s ≤ pm0` and `s < lenFull`. -/
def cutLoop (pm0 lenFull : Nat) : List Nat → Nat → Nat → Nat × Nat
  | [], cut, s => (cut, s)
  | len :: rest, cut, s =>
    if s ≤ pm0 ∧ s < lenFull then cutLoop pm0 lenFull rest (cut + 1) (s + len)
    else (cut, s)

/-- `packed_word_to_labelled_tree`, with fuel (the word's length always
suffices, since the recursion is on factors of the word without its
maximal letters).  Only ever applied to nonempty packed words. -/
def pwToLTreeF : Nat → List Nat → PTree
  | 0, _ => .node [] (0, [])
  | fuel + 1, w =>
    let m := maxL w
    if m = 1 then .node [] (0, List.range' 1 w.length)
    else
      let pos_max := positionsOf w m
      let w_m := w.filter (fun x => x < m)
      if w_m.length ≤ pos_max.headD 0 then
        let children := if w_m = [] then []
          else (globalDescentsFactorization w_m).map (pwToLTreeF fuel)
        .node children (children.length, List.range' 1 pos_max.length)
      else
        let g := globalDescentsFactorization w_m
        let lens := g.map List.length
        let cs := cutLoop (pos_max.headD 0) w_m.length (lens.drop 1) 0 (lens.headD 0)
        let s := cs.2 - lens.getD cs.1 0
        .node (g.map (pwToLTreeF fuel)) (cs.1, pos_max.map (fun x => x - s + 1))

/-- `packed_word_to_labelled_tree` (public wrapper). -/
def packed_word_to_labelled_tree (w : List Nat) : PTree := pwToLTreeF w.length w

/-- `packed_word_to_labelled_forest`: encode each global-descent factor. -/
def packed_word_to_labelled_forest (w : List Nat) : List PTree :=
  if w = [] then []
  else (globalDescentsFactorization w).map packed_word_to_labelled_tree

/-- The shifted concatenation of the decoders:
`lambda w1, w2: [x + max(w2) for x in w1] + w2`. -/
def l_shifted_concat (w1 w2 : List Nat) : List Nat :=
  w1.map (fun x => x + maxL w2) ++ w2

/-- `weight t = len(t.label()[1]) + sum(weight(ti) for ti in t)`. -/
def weight : PTree → Nat
  | .node cs lbl => lbl.2.length + (cs.attach.map (fun x => weight x.1)).sum
decreasing_by
  have := List.sizeOf_lt_of_mem x.2
  simp only [LTree.node.sizeOf_spec]
  omega

/-- `weight_l t = sum(weight(ti) for ti in t[:t.label()[0]])`. -/
def weight_l (t : PTree) : Nat := ((t.children.take t.label.1).map weight).sum

/-- `labelled_tree_to_packed_word`, with fuel (`sizeOf` the tree always
suffices): decode the children as a forest, then reinsert the maximal
letter with `upgrade_max` at the label positions shifted by `weight_l`. -/
def treeDecF : Nat → PTree → Except PWErr (List Nat)
  | 0, _ => .error .fuelOut
  | fuel + 1, t => do
    let res ←
      match t.children with
      | [] => Except.ok []
      | [t1] => treeDecF fuel t1
      | f => do
        let ws ← f.mapM (treeDecF fuel)
        Except.ok (ws.foldl l_shifted_concat [])
    upgrade_max res (t.label.2.map (fun x => x + weight_l t - 1))

/-- `labelled_forest_to_packed_word`, with fuel: empty forest decodes to
the empty word; a singleton to its tree; otherwise decode all trees and
fold the shifted concatenation. -/
def forestDecF (fuel : Nat) (f : List PTree) : Except PWErr (List Nat) :=
  match f with
  | [] => .ok []
  | [t1] => treeDecF fuel t1
  | f => do
    let ws ← f.mapM (treeDecF fuel)
    Except.ok (ws.foldl l_shifted_concat [])

/-- `labelled_tree_to_packed_word` (public wrapper). -/
def labelled_tree_to_packed_word (t : PTree) : Except PWErr (List Nat) :=
  treeDecF t.size t

/-- `labelled_forest_to_packed_word` (public wrapper). -/
def labelled_forest_to_packed_word (f : List PTree) : Except PWErr (List Nat) :=
  forestDecF ((f.map LTree.size).sum) f

/-- `packed_word_to_labelled_tree_left`, with fuel (the word's length
always suffices).  Encodes on the last letter `l`, the seen flag `b`, and
the global-descent factors of the packed length-`n-1` front, the children
listed in reverse order.  Only ever applied to nonempty packed words. -/
def pwToLTreeLF : Nat → List Nat → LTreeL
  | 0, _ => .node [] (0, (1, false))
  | fuel + 1, w =>
    if w.length ≤ 1 then .node [] (0, (1, false))
    else
      let l := w.getLastD 0
      let w_l := w.dropLast
      let b := decide (l ∈ w_l)
      let g := globalDescentsFactorization (pack w_l)
      let cut := g.length - (if b ∨ l ≠ maxL w then 1 else 0)
      let lbl :=
        if b then (g.headD []).getD (w.indexOf l) 0
        else if l = maxL w then 1
        else (g.headD []).getD ((w.take (g.headD []).length).indexOf (l - 1)) 0 + 1
      .node (g.reverse.map (pwToLTreeLF fuel)) (cut, (lbl, b))

/-- `packed_word_to_labelled_tree_left` (public wrapper). -/
def packed_word_to_labelled_tree_left (w : List Nat) : LTreeL := pwToLTreeLF w.length w

/-- `packed_word_to_labelled_forest_left`: encode the global-descent
factors in reverse order. -/
def packed_word_to_labelled_forest_left (w : List Nat) : List LTreeL :=
  if w = [] then []
  else (globalDescentsFactorization w).reverse.map packed_word_to_labelled_tree_left

/-- `nb_false t = 1 - t.label()[1][1] + sum(nb_false(ti) for ti in t)`. -/
def nb_false : LTreeL → Nat
  | .node cs lbl => (1 - if lbl.2.2 then 1 else 0) + (cs.attach.map (fun x => nb_false x.1)).sum
decreasing_by
  have := List.sizeOf_lt_of_mem x.2
  simp only [LTree.node.sizeOf_spec]
  omega

/-- `nb_false_l t = sum(nb_false(ti) for ti in t[:t.label()[0]])`. -/
def nb_false_l (t : LTreeL) : Nat := ((t.children.take t.label.1).map nb_false).sum

/-- `labelled_tree_to_packed_word_left`, with fuel: decode the children as
a forest (which itself reverses them), then `upgrade_last` with the label
value corrected by `nb_false_l`. -/
def treeDecLF : Nat → LTreeL → Except PWErr (List Nat)
  | 0, _ => .error .fuelOut
  | fuel + 1, t => do
    let res ←
      match t.children with
      | [] => Except.ok []
      | [t1] => treeDecLF fuel t1
      | f => do
        let ws ← f.reverse.mapM (treeDecLF fuel)
        Except.ok (ws.foldl l_shifted_concat [])
    Except.ok (upgrade_last res (t.label.2.1 + nb_false_l t, t.label.2.2))

/-- `labelled_forest_to_packed_word_left`, with fuel. -/
def forestDecLF (fuel : Nat) (f : List LTreeL) : Except PWErr (List Nat) :=
  match f with
  | [] => .ok []
  | [t1] => treeDecLF fuel t1
  | f => do
    let ws ← f.reverse.mapM (treeDecLF fuel)
    Except.ok (ws.foldl l_shifted_concat [])

/-- `labelled_tree_to_packed_word_left` (public wrapper). -/
def labelled_tree_to_packed_word_left (t : LTreeL) : Except PWErr (List Nat) :=
  treeDecLF t.size t

/-- `labelled_forest_to_packed_word_left` (public wrapper). -/
def labelled_forest_to_packed_word_left (f : List LTreeL) : Except PWErr (List Nat) :=
  forestDecLF ((f.map LTree.size).sum) f

instance {ε α : Type} [DecidableEq ε] [DecidableEq α] : DecidableEq (Except ε α) := by
  intro a b
  cases a <;> cases b
  case error.error e e2 =>
    exact if h : e = e2 then isTrue (by rw [h]) else isFalse (fun hh => h (by injection hh))
  case ok.ok x y =>
    exact if h : x = y then isTrue (by rw [h]) else isFalse (fun hh => h (by injection hh))
  case error.ok e x => exact isFalse (fun hh => Except.noConfusion hh)
  case ok.error x e => exact isFalse (fun hh => Except.noConfusion hh)

/-- Validity of a packed word over `Nat` entries: the `check` condition on
the corresponding integer sequence. -/
def isPackedWord (w : List Nat) : Prop :=
  pwCheck (w.map (fun x : Nat => (x : Int))) = .ok ()

instance (w : List Nat) : Decidable (isPackedWord w) := by
  unfold isPackedWord; infer_instance

/-! ## Basic lemmas about `maxL` and `sortedDistinct` -/

theorem le_maxL {w : List Nat} {x : Nat} (hx : x ∈ w) : x ≤ maxL w := by
  induction w with
  | nil => cases hx
  | cons a t ih =>
    rcases List.mem_cons.mp hx with h | h
    · simp [maxL, h, Nat.le_max_left]
    · exact le_trans (ih h) (by simp [maxL, Nat.le_max_right])

theorem maxL_mem {w : List Nat} (hw : w ≠ []) : maxL w ∈ w := by
  induction w with
  | nil => exact absurd rfl hw
  | cons a t ih =>
    rcases t.eq_nil_or_concat.imp_left id with h | _
    · subst h; simp [maxL]
    · by_cases ht : t = []
      · subst ht; simp [maxL]
      · have : maxL (a :: t) = max a (maxL t) := by simp [maxL]
        rw [this]
        rcases Nat.le_total a (maxL t) with h | h
        · rw [Nat.max_eq_right h]; exact List.mem_cons_of_mem _ (ih ht)
        · rw [Nat.max_eq_left h]; exact List.mem_cons_self _ _

theorem maxL_le {w : List Nat} {b : Nat} (h : ∀ x ∈ w, x ≤ b) : maxL w ≤ b := by
  induction w with
  | nil => simp [maxL]
  | cons a t ih =>
    simp only [maxL, List.foldr_cons] at *
    exact Nat.max_le.mpr ⟨h a (List.mem_cons_self _ _), ih fun x hx => h x (List.mem_cons_of_mem _ hx)⟩

theorem maxL_cons (a : Nat) (w : List Nat) : maxL (a :: w) = max a (maxL w) := rfl

theorem maxL_append (u v : List Nat) : maxL (u ++ v) = max (maxL u) (maxL v) := by
  induction u with
  | nil => simp [maxL]
  | cons a t ih =>
    simp only [List.cons_append, maxL_cons, ih, Nat.max_assoc]

theorem maxL_pos {w : List Nat} {x : Nat} (hx : x ∈ w) (hx1 : 1 ≤ x) : 1 ≤ maxL w :=
  le_trans hx1 (le_maxL hx)

theorem mem_sortedDistinct {α : Type} [LinearOrder α] {l : List α} {x : α} :
    x ∈ sortedDistinct l ↔ x ∈ l := by
  unfold sortedDistinct
  rw [(List.perm_insertionSort _ _).mem_iff, List.mem_dedup]

theorem sortedDistinct_nodup {α : Type} [LinearOrder α] (l : List α) :
    (sortedDistinct l).Nodup :=
  (List.perm_insertionSort _ _).nodup_iff.mpr l.nodup_dedup

theorem sortedDistinct_sorted_le {α : Type} [LinearOrder α] (l : List α) :
    (sortedDistinct l).Sorted (· ≤ ·) :=
  List.sorted_insertionSort _ _

theorem sortedDistinct_sorted_lt {α : Type} [LinearOrder α] (l : List α) :
    (sortedDistinct l).Sorted (· < ·) :=
  (sortedDistinct_sorted_le l).lt_of_le (sortedDistinct_nodup l)

/-- Two strictly sorted lists with the same members are equal. -/
theorem eq_of_sorted_lt_of_mem_iff {α : Type} [LinearOrder α] {l1 l2 : List α}
    (h1 : l1.Sorted (· < ·)) (h2 : l2.Sorted (· < ·)) (h : ∀ x, x ∈ l1 ↔ x ∈ l2) :
    l1 = l2 := by
  refine List.eq_of_perm_of_sorted ?_ h1 h2
  refine List.perm_of_nodup_nodup_toFinset_eq h1.nodup h2.nodup ?_
  ext x
  simp [List.mem_toFinset, h x]

/-- The last element (with default) of a list is a member when nonempty. -/
theorem getLastD_mem {α : Type} {l : List α} (h : l ≠ []) (d : α) : l.getLastD d ∈ l := by
  induction l with
  | nil => exact absurd rfl h
  | cons a t ih =>
    cases t with
    | nil => simp
    | cons b t2 => simpa using Or.inr (ih (by simp))

/-- `getLastD` does not depend on the default for a nonempty list. -/
theorem getLastD_eq_of_ne_nil {α : Type} {l : List α} (h : l ≠ []) (d d2 : α) :
    l.getLastD d = l.getLastD d2 := by
  cases l with
  | nil => exact absurd rfl h
  | cons a t => rw [List.getLastD_cons, List.getLastD_cons]

/-- In a `≤`-sorted list, every member is at most the last element. -/
theorem le_getLastD_of_sorted {α : Type} [LinearOrder α] {l : List α}
    (hs : l.Sorted (· ≤ ·)) {x : α} (hx : x ∈ l) (d : α) : x ≤ l.getLastD d := by
  induction l generalizing d with
  | nil => cases hx
  | cons a t ih =>
    cases t with
    | nil =>
      simp only [List.mem_singleton] at hx
      simp [hx]
    | cons b t2 =>
      rw [List.getLastD_cons]
      rcases List.mem_cons.mp hx with rfl | hx2
      · exact (List.sorted_cons.mp hs).1 _ (getLastD_mem (by simp) _)
      · exact ih (List.sorted_cons.mp hs).2 hx2 a

/-- The characterization of validity over `Nat` entries: every entry is
positive and every value from `1` to the maximum occurs. -/
theorem isPackedWord_iff {w : List Nat} :
    isPackedWord w ↔ (∀ x ∈ w, 1 ≤ x) ∧ ∀ k, 1 ≤ k → k ≤ maxL w → k ∈ w := by
  simp only [isPackedWord, pwCheck]
  have hall : ((w.map (fun x : Nat => (x : Int))).all fun a => decide (0 < a)) = true ↔
      ∀ x ∈ w, 1 ≤ x := by
    rw [List.all_eq_true]
    constructor
    · intro h x hx
      have := h _ (List.mem_map_of_mem _ hx)
      simp only [decide_eq_true_eq] at this
      omega
    · intro h a ha
      rcases List.mem_map.mp ha with ⟨x, hx, rfl⟩
      simp only [decide_eq_true_eq]
      have := h x hx
      omega
  set sd := sortedDistinct (w.map (fun x : Nat => (x : Int))) with hsd
  have hmem : ∀ y : ℤ, y ∈ sd ↔ y ∈ w.map (fun x : Nat => (x : Int)) :=
    fun y => mem_sortedDistinct
  constructor
  · intro h
    by_cases hpos : ((w.map (fun x : Nat => (x : Int))).all fun a => decide (0 < a)) = true
    swap
    · rw [if_neg hpos] at h; cases h
    rw [if_pos hpos] at h
    have hposw := hall.mp hpos
    refine ⟨hposw, ?_⟩
    by_cases heq : sd = (List.range' 1 (sd.getLastD 0).toNat).map (fun n : Nat => (n : Int))
    swap
    · rw [if_neg heq] at h; cases h
    intro k hk1 hkm
    have hwne : w ≠ [] := by rintro rfl; simp [maxL] at hkm; omega
    have hmax : ((maxL w : Int)) ∈ sd := by
      rw [hmem]
      exact List.mem_map_of_mem _ (maxL_mem hwne)
    rw [heq] at hmax
    rcases List.mem_map.mp hmax with ⟨j, hj, hje⟩
    have hj2 : 1 ≤ j ∧ j < 1 + (sd.getLastD 0).toNat := List.mem_range'_1.mp hj
    have hjm : j = maxL w := by exact_mod_cast hje
    have hkmem : ((k : Int)) ∈ (List.range' 1 (sd.getLastD 0).toNat).map
        (fun n : Nat => (n : Int)) := by
      refine List.mem_map_of_mem _ (List.mem_range'_1.mpr ⟨hk1, by omega⟩)
    rw [← heq] at hkmem
    rcases List.mem_map.mp ((hmem _).mp hkmem) with ⟨x, hx, hxe⟩
    have hxk : x = k := by exact_mod_cast hxe
    exact hxk ▸ hx
  · rintro ⟨hpos, hfull⟩
    rw [if_pos (hall.mpr hpos)]
    have hmemc : ∀ y : ℤ, y ∈ sd ↔ 1 ≤ y ∧ y ≤ (maxL w : Int) := by
      intro y
      rw [hmem]
      constructor
      · intro hy
        rcases List.mem_map.mp hy with ⟨x, hx, rfl⟩
        exact ⟨by exact_mod_cast hpos x hx, by exact_mod_cast le_maxL hx⟩
      · rintro ⟨h1, h2⟩
        lift y to ℕ using (by omega)
        refine List.mem_map_of_mem _ (hfull y ?_ ?_) <;> omega
    have hlast : (sd.getLastD 0).toNat = maxL w := by
      by_cases hw : w = []
      · subst hw
        have hsde : sd = [] := by
          cases hsde2 : sd with
          | nil => rfl
          | cons a t =>
            exfalso
            have ha : a ∈ sd := by rw [hsde2]; simp
            rw [hmem] at ha
            simp at ha
        simp [hsde, maxL]
      · have hsdne : sd ≠ [] := by
          intro hn
          have := (hmem ((maxL w : Int))).mpr (List.mem_map_of_mem _ (maxL_mem hw))
          rw [hn] at this
          cases this
        have hin : sd.getLastD 0 ∈ sd := getLastD_mem hsdne 0
        have hub : sd.getLastD 0 ≤ (maxL w : Int) := ((hmemc _).mp hin).2
        have hmm : ((maxL w : Int)) ∈ sd := by
          rw [hmemc]
          refine ⟨?_, le_refl _⟩
          have h1 := hpos _ (maxL_mem hw)
          exact_mod_cast maxL_pos (maxL_mem hw) h1
        have hlb : ((maxL w : Int)) ≤ sd.getLastD 0 :=
          le_getLastD_of_sorted (sortedDistinct_sorted_le _) hmm 0
        omega
    have hcond : sd = (List.range' 1 (maxL w)).map (fun n : Nat => (n : Int)) := by
      refine eq_of_sorted_lt_of_mem_iff (sortedDistinct_sorted_lt _) ?_ ?_
      · refine List.Pairwise.map _ ?_ (List.pairwise_lt_range' _ _ 1 (Nat.le_refl 1))
        intro a b hab
        exact_mod_cast hab
      · intro y
        rw [hmemc y]
        constructor
        · rintro ⟨h1, h2⟩
          lift y to ℕ using (by omega)
          refine List.mem_map_of_mem _ (List.mem_range'_1.mpr ⟨by omega, by omega⟩)
        · intro hy
          rcases List.mem_map.mp hy with ⟨j, hj, rfl⟩
          have hj2 := List.mem_range'_1.mp hj
          exact ⟨by exact_mod_cast hj2.1, by exact_mod_cast (by omega : j ≤ maxL w)⟩
    rw [hlast, if_pos hcond]

/-! ## Sortedness bridge for `upgrade_max` -/

/-- Python `sorted(l) == l` is equivalent to `l` being `≤`-sorted. -/
theorem insertionSort_eq_self_iff {l : List Nat} :
    List.insertionSort (· ≤ ·) l = l ↔ l.Sorted (· ≤ ·) := by
  constructor
  · intro h
    rw [← h]
    exact List.sorted_insertionSort _ _
  · exact List.Sorted.insertionSort_eq

/-! ## C10: `is_particular` on the empty word -/

/-- C10: `is_particular` applied to the empty packed word raises a
`ValueError`, both for `side="right"` and for `side="left"`. -/
theorem C10_is_particular_empty_raises :
    is_particular [] Side.right = .error .bareValueError ∧
    is_particular [] Side.left = .error .bareValueError :=
  ⟨rfl, rfl⟩

/-! ## C8: the concrete right-weak-order intervals -/

/-- C8: `right_weak_order_interval([1,2,1],[2,1,1])` is exactly the
two-element collection `[[1,2,1],[2,1,1]]`, and
`right_weak_order_interval([1,2,1],[2,1,2])` is empty (the two words lie
in different equivalence classes) rather than an error. -/
theorem C8_interval_concrete :
    right_weak_order_interval [1, 2, 1] [2, 1, 1] = [[1, 2, 1], [2, 1, 1]] ∧
    right_weak_order_interval [1, 2, 1] [2, 1, 2] = [] :=
  ⟨rfl, rfl⟩

/-! ## C6: `upgrade_max` error behaviour (corrected) -/

/-- C6 counterexample: on the empty packed word the ordering check is
skipped, so `upgrade_max([], [1,0])` succeeds (inserting the value `1`)
even though `[1,0]` is not sorted in increasing order, contradicting the
claim that a `PositionMismatch` error is raised for every unsorted
position list. -/
theorem C6_counterexample :
    isPackedWord [] ∧ ¬ ([1, 0] : List Nat).Sorted (· ≤ ·) ∧
    upgrade_max [] [1, 0] = .ok [1, 1] := by
  refine ⟨by decide, by decide, rfl⟩

/-- C6 (amended): `upgrade_max w l` fails with `EmptyInsertionList` when
`l` is empty; when `w` is empty (and `l` is not) the ordering and length
checks are skipped and the value `1` is inserted at each given position;
otherwise it fails with `PositionMismatch` when `l` is not sorted in
increasing order or when its last position exceeds
`len(w) + len(l) - 1`, and else returns `w` with the value `max(w)+1`
inserted at each given position in turn. -/
theorem C6_upgrade_max_cases (w l : List Nat) :
    (l = [] → upgrade_max w l = .error .emptyInsertionList) ∧
    (w = [] → l ≠ [] → upgrade_max w l = .ok (insertAll [] l 1)) ∧
    (w ≠ [] → ¬ l.Sorted (· ≤ ·) → upgrade_max w l = .error .positionMismatch) ∧
    (w ≠ [] → l.Sorted (· ≤ ·) → w.length + l.length - 1 < l.getLastD 0 →
      upgrade_max w l = .error .positionMismatch) ∧
    (w ≠ [] → l ≠ [] → l.Sorted (· ≤ ·) → l.getLastD 0 ≤ w.length + l.length - 1 →
      upgrade_max w l = .ok (insertAll w l (maxL w + 1))) := by
  refine ⟨?_, ?_, ?_, ?_, ?_⟩
  · rintro rfl
    rfl
  · rintro rfl hl
    rw [upgrade_max, if_neg hl, if_pos rfl]
  · intro hw hs
    have hl : l ≠ [] := by rintro rfl; exact hs (by simp)
    have hne : List.insertionSort (· ≤ ·) l ≠ l := fun he => hs (insertionSort_eq_self_iff.mp he)
    rw [upgrade_max, if_neg hl, if_neg hw, if_pos hne]
  · intro hw hs hlen
    have hl : l ≠ [] := by
      rintro rfl
      simp at hlen
    rw [upgrade_max, if_neg hl, if_neg hw,
      if_neg (by simp only [ne_eq, not_not]; exact insertionSort_eq_self_iff.mpr hs),
      if_pos hlen]
  · intro hw hl hs hlen
    rw [upgrade_max, if_neg hl, if_neg hw,
      if_neg (by simp only [ne_eq, not_not]; exact insertionSort_eq_self_iff.mpr hs),
      if_neg (by omega)]

/-- C6 witness: the ok-case of the amended claim at the documented example
`upgrade_max([1,2,1],[0,1,3]) = [3,3,1,3,2,1]`. -/
theorem C6_upgrade_max_cases_witness :
    ([1, 2, 1] : List Nat) ≠ [] ∧ ([0, 1, 3] : List Nat) ≠ [] ∧
    ([0, 1, 3] : List Nat).Sorted (· ≤ ·) ∧
    ([0, 1, 3] : List Nat).getLastD 0 ≤ [1, 2, 1].length + [0, 1, 3].length - 1 ∧
    upgrade_max [1, 2, 1] [0, 1, 3] = .ok [3, 3, 1, 3, 2, 1] :=
  ⟨by decide, by decide, by decide, by decide,
    ((C6_upgrade_max_cases [1, 2, 1] [0, 1, 3]).2.2.2.2 (by decide) (by decide)
      (by decide) (by decide)).trans rfl⟩

/-! ## C5: the cut component of the left tree encoder (corrected) -/

/-- C5 counterexample: for the packed word `[1,3,2]` (no global descents,
length ≥ 2) the last letter `l = 2` does not occur in the front `[1,3]`
and differs from the front maximum `3`, so the claim predicts
`cut = len(factors) = 1`; the encoder produces `cut = 0`. -/
theorem C5_counterexample :
    isPackedWord [1, 3, 2] ∧ globalDescents [1, 3, 2] false = [] ∧
    (2 : Nat) ∉ ([1, 3] : List Nat) ∧ (2 : Nat) ≠ maxL [1, 3] ∧
    (globalDescentsFactorization (pack [1, 3])).length = 1 ∧
    (packed_word_to_labelled_tree_left [1, 3, 2]).label.1 = 0 := by
  refine ⟨by decide, by decide, by decide, by decide, by decide, rfl⟩

/-- C5 (amended): for every packed word `w` of length at least 2 with no
global descents (the words the tree encoder is invoked on), with `l` the
last letter, `b` the flag `l ∈ w[1..n-1]`, and `factors` the
global-descent factorization of the re-packed front, the left tree
encoder produces `cut = len(factors) - 1`, except when `b` is false and
`l` equals the maximum of `w` (that is, `l` exceeds the front maximum),
in which case `cut = len(factors)`. -/
theorem C5_left_encoder_cut (w : List Nat) (hpw : isPackedWord w) (h2 : 2 ≤ w.length)
    (hnd : globalDescents w false = []) :
    (packed_word_to_labelled_tree_left w).label.1 =
      if w.getLastD 0 ∉ w.dropLast ∧ w.getLastD 0 = maxL w
      then (globalDescentsFactorization (pack w.dropLast)).length
      else (globalDescentsFactorization (pack w.dropLast)).length - 1 := by
  unfold packed_word_to_labelled_tree_left
  cases hn : w.length with
  | zero => omega
  | succ m =>
    simp only [pwToLTreeLF, LTree.label]
    rw [if_neg (by omega)]
    simp only [LTree.label]
    by_cases hb : w.getLast?.getD 0 ∈ w.dropLast <;>
      by_cases hm : w.getLast?.getD 0 = maxL w <;>
        simp [hb, hm, List.getLastD_eq_getLast?] <;> split <;> simp

/-- C5 witness: the amended claim at `w = [2,1,2]`: the last letter occurs
in the front, so `cut = len(factors) - 1 = 1`. -/
theorem C5_left_encoder_cut_witness :
    isPackedWord [2, 1, 2] ∧ 2 ≤ ([2, 1, 2] : List Nat).length ∧
    globalDescents [2, 1, 2] false = [] ∧
    (packed_word_to_labelled_tree_left [2, 1, 2]).label.1 =
      if ([2, 1, 2] : List Nat).getLastD 0 ∉ ([2, 1, 2] : List Nat).dropLast ∧
         ([2, 1, 2] : List Nat).getLastD 0 = maxL [2, 1, 2]
      then (globalDescentsFactorization (pack ([2, 1, 2] : List Nat).dropLast)).length
      else (globalDescentsFactorization (pack ([2, 1, 2] : List Nat).dropLast)).length - 1 :=
  ⟨by decide, by decide, by decide,
    C5_left_encoder_cut [2, 1, 2] (by decide) (by decide) (by decide)⟩

/-! ## C7: `is_gequal` on the left side (corrected) -/

/-- C7 counterexample: `is_gequal([2,1],[1,2],side="left")` returns `true`
although the two words do not induce the same *ordered* set partition
(`[{2},{1}]` versus `[{1},{2}]`); the source compares the partitions as
unordered sets of blocks. -/
theorem C7_counterexample :
    isPackedWord [2, 1] ∧ isPackedWord [1, 2] ∧
    is_gequal [2, 1] [1, 2] Side.left = true ∧
    to_ordered_set_partition [2, 1] ≠ to_ordered_set_partition [1, 2] := by
  refine ⟨by decide, by decide, by decide, by decide⟩

/-- C7 (amended): `is_gequal(u, v, side="left")` returns `true` iff `u`
and `v` induce the same *set* of blocks (ordered set partitions equal up
to block order) and `v`'s right/position inversions are a subset of
`u`'s; on different equivalence classes it returns `false` rather than
raising an error. -/
theorem C7_is_gequal_left_iff (u v : List Nat) :
    is_gequal u v Side.left = true ↔
      ((to_ordered_set_partition u).toFinset = (to_ordered_set_partition v).toFinset ∧
        inversions_rp v ⊆ inversions_rp u) := by
  simp only [is_gequal]
  by_cases h : (to_ordered_set_partition u).toFinset = (to_ordered_set_partition v).toFinset <;>
    simp [h]

/-! ## C3: construction validation (code bug in the error message) -/

theorem le_foldr_max_int {s : List Int} {x : Int} (hx : x ∈ s) : x ≤ s.foldr max 0 := by
  induction s with
  | nil => cases hx
  | cons a t ih =>
    rcases List.mem_cons.mp hx with rfl | h
    · simp [le_max_iff]
    · simp only [List.foldr_cons, le_max_iff]
      exact Or.inr (ih h)

theorem foldr_max_int_mem {s : List Int} (hs : s ≠ []) (hpos : ∀ x ∈ s, 0 < x) :
    s.foldr max 0 ∈ s := by
  induction s with
  | nil => exact absurd rfl hs
  | cons a t ih =>
    by_cases ht : t = []
    · subst ht
      simp only [List.foldr_cons, List.foldr_nil]
      have := hpos a (by simp)
      simp [max_eq_left (by omega : (0 : Int) ≤ a)]
    · simp only [List.foldr_cons]
      rcases le_total a (t.foldr max 0) with h | h
      · rw [max_eq_right h]
        exact List.mem_cons_of_mem _ (ih ht fun x hx => hpos x (List.mem_cons_of_mem _ hx))
      · rw [max_eq_left h]
        exact List.mem_cons_self _ _

/-- For a nonempty list of positive integers, the last entry of the sorted
distinct values is the maximum of the list. -/
theorem sortedDistinct_getLastD_eq_max {s : List Int} (hs : s ≠ [])
    (hpos : ∀ x ∈ s, 0 < x) :
    (sortedDistinct s).getLastD 0 = s.foldr max 0 := by
  have hmem : ∀ y : ℤ, y ∈ sortedDistinct s ↔ y ∈ s := fun y => mem_sortedDistinct
  have hne : sortedDistinct s ≠ [] := by
    intro hn
    have := (hmem (s.foldr max 0)).mpr (foldr_max_int_mem hs hpos)
    rw [hn] at this
    cases this
  have hin : (sortedDistinct s).getLastD 0 ∈ s := (hmem _).mp (getLastD_mem hne 0)
  have hub : (sortedDistinct s).getLastD 0 ≤ s.foldr max 0 := le_foldr_max_int hin
  have hlb : s.foldr max 0 ≤ (sortedDistinct s).getLastD 0 :=
    le_getLastD_of_sorted (sortedDistinct_sorted_le s)
      ((hmem _).mpr (foldr_max_int_mem hs hpos)) 0
  omega

/-- C3: construction succeeds exactly when the sequence is empty or
consists of positive integers whose sorted distinct values are
`1, …, max(s)`; and at the failing input `[2]` the construction fails with
the value-contiguity error, whose constructor (like the Python message,
whose format string has no placeholder even though `.format(self)` is
called on it) does not report the offending sequence. -/
theorem C3_check_characterization :
    (∀ s : List Int, pwCheck s = .ok () ↔
      (s = [] ∨ ((∀ x ∈ s, 0 < x) ∧
        sortedDistinct s =
          (List.range' 1 (s.foldr max 0).toNat).map (fun n : Nat => (n : Int))))) ∧
    pwCheck [2] = .error PWErr.missingLowerValue := by
  constructor
  swap
  · rfl
  intro s
  by_cases hs : s = []
  · subst hs
    constructor
    · intro _
      exact Or.inl rfl
    · intro _
      rfl
  simp only [pwCheck]
  by_cases hpos : (s.all fun a => decide (0 < a)) = true
  · have hposP : ∀ x ∈ s, 0 < x := by
      intro x hx
      have := List.all_eq_true.mp hpos x hx
      simpa using this
    rw [if_pos hpos, sortedDistinct_getLastD_eq_max hs hposP]
    by_cases heq : sortedDistinct s =
        (List.range' 1 (s.foldr max 0).toNat).map (fun n : Nat => (n : Int))
    · rw [if_pos heq]
      constructor
      · intro _
        exact Or.inr ⟨hposP, heq⟩
      · intro _
        rfl
    · rw [if_neg heq]
      simp [heq, hs]
  · rw [if_neg hpos]
    have : ¬ ∀ x ∈ s, 0 < x := by
      intro hc
      exact hpos (List.all_eq_true.mpr fun x hx => by simpa using hc x hx)
    simp [this, hs]

/-! ## Adjacent-position swaps (`swapAdj`) -/

theorem getD_zero_eq_getElem {w : List Nat} {k : Nat} (h : k < w.length) :
    w.getD k 0 = w[k] := by
  rw [List.getD_eq_getElem?_getD, List.getElem?_eq_getElem h]
  rfl

/-- The decomposition of a word around two adjacent positions. -/
theorem swap_decomp {w : List Nat} {i : Nat} (h : i + 1 < w.length) :
    w = w.take i ++ w.getD i 0 :: w.getD (i + 1) 0 :: w.drop (i + 2) := by
  conv_lhs => rw [← List.take_append_drop i w]
  congr 1
  rw [List.drop_eq_getElem_cons (by omega), List.drop_eq_getElem_cons (by omega)]
  rw [getD_zero_eq_getElem (by omega), getD_zero_eq_getElem (by omega)]

theorem swapAdj_perm {w : List Nat} {i : Nat} (h : i + 1 < w.length) :
    (swapAdj w i).Perm w := by
  unfold swapAdj
  conv_rhs => rw [swap_decomp h]
  exact List.Perm.append_left _ (List.Perm.swap _ _ _)

theorem swapAdj_length {w : List Nat} {i : Nat} (h : i + 1 < w.length) :
    (swapAdj w i).length = w.length :=
  (swapAdj_perm h).length_eq

theorem swapAdj_getD {w : List Nat} {i : Nat} (h : i + 1 < w.length) (k : Nat) :
    (swapAdj w i).getD k 0 =
      w.getD (if k = i then i + 1 else if k = i + 1 then i else k) 0 := by
  have hti : (w.take i).length = i := by
    rw [List.length_take]
    omega
  unfold swapAdj
  simp only [List.getD_eq_getElem?_getD]
  by_cases h1 : k < i
  · rw [if_neg (by omega), if_neg (by omega),
      List.getElem?_append_left (by omega), List.getElem?_take, if_pos h1]
  by_cases h2 : k = i
  · subst h2
    rw [if_pos rfl, List.getElem?_append_right (by omega), hti, Nat.sub_self]
    simp
  by_cases h3 : k = i + 1
  · subst h3
    rw [if_neg h2, if_pos rfl, List.getElem?_append_right (by omega), hti]
    have h4 : i + 1 - i = 1 := by omega
    rw [h4]
    simp
  · rw [if_neg h2, if_neg h3, List.getElem?_append_right (by omega), hti]
    have hk2 : k - i = (k - i - 2) + 2 := by omega
    rw [hk2]
    simp only [List.getElem?_cons_succ]
    rw [List.getElem?_drop]
    congr 2
    omega

theorem swapAdj_swapAdj {w : List Nat} {i : Nat} (h : i + 1 < w.length) :
    swapAdj (swapAdj w i) i = w := by
  have hti : (w.take i).length = i := by
    rw [List.length_take]
    omega
  have hswap : swapAdj w i = w.take i ++ w.getD (i + 1) 0 :: w.getD i 0 :: w.drop (i + 2) :=
    rfl
  have h1 : (swapAdj w i).getD i 0 = w.getD (i + 1) 0 := by
    rw [swapAdj_getD h, if_pos rfl]
  have h2 : (swapAdj w i).getD (i + 1) 0 = w.getD i 0 := by
    rw [swapAdj_getD h, if_neg (by omega), if_pos rfl]
  have h3 : (swapAdj w i).take i = w.take i := by
    rw [hswap, List.take_append_eq_append_take, hti, Nat.sub_self, List.take_zero,
      List.append_nil, List.take_take, min_self]
  have h4 : (swapAdj w i).drop (i + 2) = w.drop (i + 2) := by
    rw [hswap, List.drop_append_eq_append_drop,
      List.drop_of_length_le (by omega : (w.take i).length ≤ i + 2), hti]
    have h5 : i + 2 - i = 2 := by omega
    rw [h5]
    simp
  conv_lhs => rw [swapAdj, h1, h2, h3, h4]
  exact (swap_decomp h).symm

/-! ## Value swaps (`swapVals`) and permutation utilities -/

theorem maxL_perm {u v : List Nat} (h : u.Perm v) : maxL u = maxL v :=
  le_antisymm (maxL_le fun x hx => le_maxL (h.mem_iff.mp hx))
    (maxL_le fun x hx => le_maxL (h.mem_iff.mpr hx))

theorem isPackedWord_of_perm {u v : List Nat} (hp : isPackedWord u) (h : u.Perm v) :
    isPackedWord v := by
  rw [isPackedWord_iff] at hp ⊢
  refine ⟨fun x hx => hp.1 x (h.mem_iff.mpr hx), fun k hk1 hk2 => ?_⟩
  exact h.mem_iff.mp (hp.2 k hk1 (by rw [maxL_perm h]; exact hk2))

theorem swapVals_length (u : List Nat) (i : Nat) : (swapVals u i).length = u.length :=
  List.length_map _ _

theorem mem_swapVals {u : List Nat} {i x : Nat} :
    x ∈ swapVals u i ↔ (if x = i then i + 1 else if x = i + 1 then i else x) ∈ u := by
  unfold swapVals
  rw [List.mem_map]
  constructor
  · rintro ⟨y, hy, rfl⟩
    by_cases h1 : y = i <;> by_cases h2 : y = i + 1 <;> simp_all
  · intro hmem
    refine ⟨if x = i then i + 1 else if x = i + 1 then i else x, hmem, ?_⟩
    by_cases h1 : x = i <;> by_cases h2 : x = i + 1 <;> simp_all <;> omega

theorem maxL_swapVals {u : List Nat} {i : Nat} (hpw : isPackedWord u)
    (h1 : 1 ≤ i) (h2 : i < maxL u) : maxL (swapVals u i) = maxL u := by
  rw [isPackedWord_iff] at hpw
  apply le_antisymm
  · apply maxL_le
    intro x hx
    rw [mem_swapVals] at hx
    by_cases hx1 : x = i
    · omega
    by_cases hx2 : x = i + 1
    · omega
    · rw [if_neg hx1, if_neg hx2] at hx
      exact le_maxL hx
  · apply le_maxL
    rw [mem_swapVals]
    by_cases hm : maxL u = i + 1
    · rw [if_neg (by omega), if_pos hm]
      exact hpw.2 i h1 (by omega)
    · rw [if_neg (by omega), if_neg hm]
      exact hpw.2 (maxL u) (by omega) (le_refl _)

theorem isPackedWord_swapVals {u : List Nat} {i : Nat} (hpw : isPackedWord u)
    (h1 : 1 ≤ i) (h2 : i < maxL u) : isPackedWord (swapVals u i) := by
  have hm := maxL_swapVals hpw h1 h2
  rw [isPackedWord_iff] at hpw ⊢
  constructor
  · intro x hx
    rw [mem_swapVals] at hx
    by_cases hx1 : x = i
    · omega
    by_cases hx2 : x = i + 1
    · omega
    · rw [if_neg hx1, if_neg hx2] at hx
      exact hpw.1 x hx
  · intro k hk1 hk2
    rw [hm] at hk2
    rw [mem_swapVals]
    by_cases hk3 : k = i
    · rw [if_pos hk3]
      exact hpw.2 (i + 1) (by omega) (by omega)
    by_cases hk4 : k = i + 1
    · rw [if_neg hk3, if_pos hk4]
      exact hpw.2 i h1 (by omega)
    · rw [if_neg hk3, if_neg hk4]
      exact hpw.2 k hk1 hk2

/-- Membership of the left swaps is membership of the swapped value, so
under packedness the set of letters is unchanged. -/
theorem mem_swapVals_iff_mem {u : List Nat} {i : Nat} (hpw : isPackedWord u)
    (h1 : 1 ≤ i) (h2 : i < maxL u) : ∀ x, x ∈ swapVals u i ↔ x ∈ u := by
  rw [isPackedWord_iff] at hpw
  intro x
  rw [mem_swapVals]
  by_cases hx1 : x = i
  · rw [if_pos hx1, hx1]
    constructor
    · intro _
      exact hpw.2 i h1 (by omega)
    · intro _
      exact hpw.2 (i + 1) (by omega) (by omega)
  by_cases hx2 : x = i + 1
  · rw [if_neg hx1, if_pos hx2, hx2]
    constructor
    · intro _
      exact hpw.2 (i + 1) (by omega) (by omega)
    · intro _
      exact hpw.2 i h1 (by omega)
  · rw [if_neg hx1, if_neg hx2]

theorem swapVals_swapVals (u : List Nat) (i : Nat) : swapVals (swapVals u i) i = u := by
  unfold swapVals
  rw [List.map_map]
  refine (List.map_congr_left ?_).trans (List.map_id u)
  intro y _
  simp only [Function.comp]
  by_cases h1 : y = i <;> by_cases h2 : y = i + 1 <;> simp_all <;> omega

/-! ## Membership characterizations of the four one-step maps -/

theorem mem_right_weak_order_succ {u v : List Nat} :
    v ∈ right_weak_order_succ u ↔
      ∃ i, i + 1 < u.length ∧ u.getD i 0 < u.getD (i + 1) 0 ∧ v = swapAdj u i := by
  unfold right_weak_order_succ
  rw [List.mem_filterMap]
  constructor
  · rintro ⟨i, hi, hf⟩
    rw [List.mem_range] at hi
    by_cases hc : u.getD i 0 < u.getD (i + 1) 0
    · rw [if_pos hc] at hf
      injection hf with hf
      exact ⟨i, by omega, hc, hf.symm⟩
    · rw [if_neg hc] at hf
      cases hf
  · rintro ⟨i, hi, hc, rfl⟩
    exact ⟨i, List.mem_range.mpr (by omega), by rw [if_pos hc]⟩

theorem mem_right_weak_order_pred {u v : List Nat} :
    v ∈ right_weak_order_pred u ↔
      ∃ i, i + 1 < u.length ∧ u.getD (i + 1) 0 < u.getD i 0 ∧ v = swapAdj u i := by
  unfold right_weak_order_pred
  rw [List.mem_filterMap]
  constructor
  · rintro ⟨i, hi, hf⟩
    rw [List.mem_range] at hi
    by_cases hc : u.getD (i + 1) 0 < u.getD i 0
    · rw [if_pos hc] at hf
      injection hf with hf
      exact ⟨i, by omega, hc, hf.symm⟩
    · rw [if_neg hc] at hf
      cases hf
  · rintro ⟨i, hi, hc, rfl⟩
    exact ⟨i, List.mem_range.mpr (by omega), by rw [if_pos hc]⟩

theorem mem_left_weak_order_succ {u v : List Nat} :
    v ∈ left_weak_order_succ u ↔
      ∃ i, 1 ≤ i ∧ i < maxL u ∧ lastOccIdx u i < firstOccIdx u (i + 1) ∧
        v = swapVals u i := by
  unfold left_weak_order_succ
  by_cases hu : u = []
  · subst hu
    rw [if_pos rfl]
    simp only [List.not_mem_nil, false_iff]
    rintro ⟨i, hi1, hi2, -, -⟩
    simp [maxL] at hi2
  rw [if_neg hu, List.mem_filterMap]
  constructor
  · rintro ⟨i, hi, hf⟩
    have hi2 := List.mem_range'_1.mp hi
    by_cases hc : lastOccIdx u i < firstOccIdx u (i + 1)
    · rw [if_pos hc] at hf
      injection hf with hf
      exact ⟨i, by omega, by omega, hc, hf.symm⟩
    · rw [if_neg hc] at hf
      cases hf
  · rintro ⟨i, hi1, hi2, hc, rfl⟩
    exact ⟨i, List.mem_range'_1.mpr ⟨hi1, by omega⟩, by rw [if_pos hc]⟩

theorem mem_left_weak_order_pred {u v : List Nat} :
    v ∈ left_weak_order_pred u ↔
      ∃ i, 1 ≤ i ∧ i < maxL u ∧ lastOccIdx u (i + 1) < firstOccIdx u i ∧
        v = swapVals u i := by
  unfold left_weak_order_pred
  by_cases hu : u = []
  · subst hu
    rw [if_pos rfl]
    simp only [List.not_mem_nil, false_iff]
    rintro ⟨i, hi1, hi2, -, -⟩
    simp [maxL] at hi2
  rw [if_neg hu, List.mem_filterMap]
  constructor
  · rintro ⟨i, hi, hf⟩
    have hi2 := List.mem_range'_1.mp hi
    by_cases hc : lastOccIdx u (i + 1) < firstOccIdx u i
    · rw [if_pos hc] at hf
      injection hf with hf
      exact ⟨i, by omega, by omega, hc, hf.symm⟩
    · rw [if_neg hc] at hf
      cases hf
  · rintro ⟨i, hi1, hi2, hc, rfl⟩
    exact ⟨i, List.mem_range'_1.mpr ⟨hi1, by omega⟩, by rw [if_pos hc]⟩

/-! ## C9: one-step results are packed words (corrected) -/

/-- C9 counterexample: `left_weak_order_succ` exchanges all occurrences of
two consecutive values, so the multiset of letters changes: from
`[1,2,2]` it produces `[2,1,1]`, in which the letter `1` occurs twice
instead of once. -/
theorem C9_counterexample :
    isPackedWord [1, 2, 2] ∧ [2, 1, 1] ∈ left_weak_order_succ [1, 2, 2] ∧
    ([2, 1, 1] : List Nat).count 1 ≠ ([1, 2, 2] : List Nat).count 1 := by
  refine ⟨by decide, by decide, by decide⟩

/-- C9 (amended): every word returned by the four one-step maps on a valid
packed word is itself a valid packed word of the same size (the functions
construct their results with validation disabled, so the invariant is
preserved by the swaps themselves).  The right-order steps moreover
preserve the multiset of letters; the left-order steps preserve the set
of distinct letters (hence the maximum) but in general not the multiset. -/
theorem C9_steps_preserve_packed (u : List Nat) (hu : isPackedWord u) :
    (∀ v ∈ right_weak_order_succ u,
      isPackedWord v ∧ v.length = u.length ∧ v.Perm u) ∧
    (∀ v ∈ right_weak_order_pred u,
      isPackedWord v ∧ v.length = u.length ∧ v.Perm u) ∧
    (∀ v ∈ left_weak_order_succ u,
      isPackedWord v ∧ v.length = u.length ∧ ∀ x, x ∈ v ↔ x ∈ u) ∧
    (∀ v ∈ left_weak_order_pred u,
      isPackedWord v ∧ v.length = u.length ∧ ∀ x, x ∈ v ↔ x ∈ u) := by
  refine ⟨?_, ?_, ?_, ?_⟩
  · intro v hv
    rcases mem_right_weak_order_succ.mp hv with ⟨i, hi, -, rfl⟩
    exact ⟨isPackedWord_of_perm hu (swapAdj_perm hi).symm, swapAdj_length hi,
      swapAdj_perm hi⟩
  · intro v hv
    rcases mem_right_weak_order_pred.mp hv with ⟨i, hi, -, rfl⟩
    exact ⟨isPackedWord_of_perm hu (swapAdj_perm hi).symm, swapAdj_length hi,
      swapAdj_perm hi⟩
  · intro v hv
    rcases mem_left_weak_order_succ.mp hv with ⟨i, hi1, hi2, -, rfl⟩
    exact ⟨isPackedWord_swapVals hu hi1 hi2, swapVals_length u i,
      mem_swapVals_iff_mem hu hi1 hi2⟩
  · intro v hv
    rcases mem_left_weak_order_pred.mp hv with ⟨i, hi1, hi2, -, rfl⟩
    exact ⟨isPackedWord_swapVals hu hi1 hi2, swapVals_length u i,
      mem_swapVals_iff_mem hu hi1 hi2⟩

/-- C9 witness: the amended claim applied at `u = [1,2,1]`, whose right
successor is `[2,1,1]`. -/
theorem C9_steps_preserve_packed_witness :
    isPackedWord [1, 2, 1] ∧ [2, 1, 1] ∈ right_weak_order_succ [1, 2, 1] ∧
    (isPackedWord [2, 1, 1] ∧ ([2, 1, 1] : List Nat).length = ([1, 2, 1] : List Nat).length ∧
      ([2, 1, 1] : List Nat).Perm [1, 2, 1]) :=
  ⟨by decide, by decide,
    (C9_steps_preserve_packed [1, 2, 1] (by decide)).1 [2, 1, 1] (by decide)⟩

/-! ## The generic swap-counting lemma for graded steps -/

/-- If `σ` is an order-preserving involution of `{0,…,N-1}` apart from
exchanging the single pair `i < j`, the pair `(i,j)` is an `S`-inversion
but not an `R`-inversion, and away from `(i,j)` the relation `R`
corresponds along `σ` to `S`, then `S` has exactly one more ordered
inversion pair than `R`. -/
theorem card_filter_swap_succ {N : Nat} (R S : Nat → Nat → Prop)
    [DecidableRel R] [DecidableRel S]
    (σ : Nat → Nat) (hinv : ∀ k, σ (σ k) = k) (hrange : ∀ k, k < N → σ k < N)
    {i j : Nat} (hij : i < j) (hjN : j < N) (hσi : σ i = j)
    (hmono : ∀ a b, a < b → (a, b) ≠ (i, j) → σ a < σ b)
    (hRij : ¬ R i j) (hSij : S i j)
    (hRS : ∀ a b, a < b → b < N → (a, b) ≠ (i, j) → (R a b ↔ S (σ a) (σ b))) :
    ((Finset.range N ×ˢ Finset.range N).filter fun p => p.1 < p.2 ∧ S p.1 p.2).card =
      ((Finset.range N ×ˢ Finset.range N).filter fun p => p.1 < p.2 ∧ R p.1 p.2).card + 1 := by
  have hσj : σ j = i := by
    have h0 := hinv i
    rw [hσi] at h0
    exact h0
  have hiN : i < N := lt_trans hij hjN
  set t := (Finset.range N ×ˢ Finset.range N).filter fun p => p.1 < p.2 ∧ S p.1 p.2 with ht
  set s := (Finset.range N ×ˢ Finset.range N).filter fun p => p.1 < p.2 ∧ R p.1 p.2 with hs
  have hmem_t : ∀ p : Nat × Nat, p ∈ t ↔ (p.1 < N ∧ p.2 < N) ∧ p.1 < p.2 ∧ S p.1 p.2 := by
    intro p
    rw [ht, Finset.mem_filter, Finset.mem_product, Finset.mem_range, Finset.mem_range]
  have hmem_s : ∀ p : Nat × Nat, p ∈ s ↔ (p.1 < N ∧ p.2 < N) ∧ p.1 < p.2 ∧ R p.1 p.2 := by
    intro p
    rw [hs, Finset.mem_filter, Finset.mem_product, Finset.mem_range, Finset.mem_range]
  have hij_t : (i, j) ∈ t := (hmem_t (i, j)).mpr ⟨⟨hiN, hjN⟩, hij, hSij⟩
  have key : s.card = (t.erase (i, j)).card := by
    refine Finset.card_bij' (fun p _ => (σ p.1, σ p.2)) (fun p _ => (σ p.1, σ p.2))
      ?_ ?_ ?_ ?_
    · rintro ⟨a, b⟩ hp
      rcases (hmem_s (a, b)).mp hp with ⟨⟨haN, hbN⟩, hab, hR⟩
      have hne : (a, b) ≠ (i, j) := by
        rintro heq
        injection heq with e1 e2
        subst e1
        subst e2
        exact hRij hR
      rw [Finset.mem_erase]
      constructor
      · rintro heq
        injection heq with e1 e2
        have e3 : a = j := by
          have h0 := hinv a
          rw [e1, hσi] at h0
          omega
        have e4 : b = i := by
          have h0 := hinv b
          rw [e2, hσj] at h0
          omega
        omega
      · refine (hmem_t (σ a, σ b)).mpr ⟨⟨hrange a haN, hrange b hbN⟩, hmono a b hab hne, ?_⟩
        exact (hRS a b hab hbN hne).mp hR
    · rintro ⟨a, b⟩ hp
      rw [Finset.mem_erase] at hp
      rcases hp with ⟨hne, hp⟩
      rcases (hmem_t (a, b)).mp hp with ⟨⟨haN, hbN⟩, hab, hS⟩
      have hne2 : (σ a, σ b) ≠ (i, j) := by
        rintro heq
        injection heq with e1 e2
        have e3 : a = j := by
          have h0 := hinv a
          rw [e1, hσi] at h0
          omega
        have e4 : b = i := by
          have h0 := hinv b
          rw [e2, hσj] at h0
          omega
        omega
      have hmono2 : σ a < σ b := hmono a b hab (fun heq => hne heq)
      refine (hmem_s (σ a, σ b)).mpr ⟨⟨hrange a haN, hrange b hbN⟩, hmono2, ?_⟩
      have h5 := hRS (σ a) (σ b) hmono2 (hrange b hbN) hne2
      rw [hinv, hinv] at h5
      exact h5.mpr hS
    · rintro ⟨a, b⟩ hp
      simp only [hinv]
    · rintro ⟨a, b⟩ hp
      simp only [hinv]
  have hpos : 1 ≤ t.card := Finset.card_pos.mpr ⟨(i, j), hij_t⟩
  have herase := Finset.card_erase_of_mem hij_t
  omega

/-- The 1-based right/position inversion set has the same cardinality as
its 0-based ordered-pair core. -/
theorem card_inversions_rp (w : List Nat) :
    (inversions_rp w).card =
      ((Finset.range w.length ×ˢ Finset.range w.length).filter
        fun p => p.1 < p.2 ∧ w.getD p.2 0 < w.getD p.1 0).card := by
  unfold inversions_rp
  apply Finset.card_image_of_injective
  rintro ⟨a, b⟩ ⟨c, d⟩ h
  simp only [Prod.mk.injEq] at h ⊢
  omega

/-- The left/value inversion set, whose pairs are stored as `(larger,
smaller)`, is the swap-image of an ordered-pair core. -/
theorem inversions_lv_eq_image (w : List Nat) :
    inversions_lv w =
      ((Finset.range (maxL w + 1) ×ˢ Finset.range (maxL w + 1)).filter
        fun p => p.1 < p.2 ∧ (1 ≤ p.1 ∧ lastOccIdx w p.2 < firstOccIdx w p.1)).image
        Prod.swap := by
  ext p
  rcases p with ⟨a, b⟩
  simp only [inversions_lv, Finset.mem_image, Finset.mem_filter, Finset.mem_product,
    Finset.mem_range, Prod.exists, Prod.swap_prod_mk, Prod.mk.injEq]
  constructor
  · rintro ⟨⟨ha, hb⟩, h1, h2, h3⟩
    exact ⟨b, a, ⟨⟨hb, ha⟩, h2, h1, h3⟩, rfl, rfl⟩
  · rintro ⟨x, y, ⟨⟨hx, hy⟩, h1, h2, h3⟩, rfl, rfl⟩
    exact ⟨⟨hy, hx⟩, h2, h1, h3⟩

theorem card_inversions_lv (w : List Nat) :
    (inversions_lv w).card =
      ((Finset.range (maxL w + 1) ×ˢ Finset.range (maxL w + 1)).filter
        fun p => p.1 < p.2 ∧ (1 ≤ p.1 ∧ lastOccIdx w p.2 < firstOccIdx w p.1)).card := by
  rw [inversions_lv_eq_image]
  exact Finset.card_image_of_injective _ Prod.swap_injective

/-! ## Occurrence indices under value swaps -/

theorem indexOf_le_of_getElem?_eq {l : List Nat} {k x : Nat}
    (h : l[k]? = some x) : l.indexOf x ≤ k := by
  induction l generalizing k with
  | nil => simp at h
  | cons a t ih =>
    rw [List.indexOf_cons]
    cases k with
    | zero =>
      simp only [List.getElem?_cons_zero, Option.some.injEq] at h
      simp [h]
    | succ k2 =>
      by_cases ha : a == x
      · simp [ha]
      · simp only [ha, cond_false]
        have h2 : t[k2]? = some x := by simpa using h
        have := ih h2
        omega

theorem firstOcc_le_lastOcc {u : List Nat} {x : Nat} (hx : x ∈ u) :
    firstOccIdx u x ≤ lastOccIdx u x := by
  unfold firstOccIdx lastOccIdx
  have h1 : u.indexOf x < u.length := List.indexOf_lt_length.mpr hx
  have h2 : u.reverse.indexOf x ≤ u.length - 1 - u.indexOf x := by
    refine indexOf_le_of_getElem?_eq ?_
    rw [List.getElem?_reverse (by omega)]
    have h3 : u.length - 1 - (u.length - 1 - u.indexOf x) = u.indexOf x := by omega
    rw [h3, List.getElem?_eq_getElem h1, List.getElem_indexOf h1]
  omega

/-- `indexOf` after a value swap looks up the swapped value. -/
theorem indexOf_swapVals (u : List Nat) (i x : Nat) :
    (swapVals u i).indexOf x =
      u.indexOf (if x = i then i + 1 else if x = i + 1 then i else x) := by
  induction u with
  | nil => rfl
  | cons a t ih =>
    unfold swapVals at ih ⊢
    simp only [List.map_cons]
    rw [List.indexOf_cons, List.indexOf_cons]
    have hbeq : ((if a = i then i + 1 else if a = i + 1 then i else a) == x)
        = (a == (if x = i then i + 1 else if x = i + 1 then i else x)) := by
      by_cases h1 : a = i <;> by_cases h2 : a = i + 1 <;>
        by_cases h3 : x = i <;> by_cases h4 : x = i + 1 <;>
          simp_all [beq_iff_eq] <;> omega
    rw [hbeq, ih]

theorem reverse_swapVals (u : List Nat) (i : Nat) :
    (swapVals u i).reverse = swapVals u.reverse i := by
  unfold swapVals
  exact List.reverse_map _ _

theorem firstOcc_swapVals (u : List Nat) (i x : Nat) :
    firstOccIdx (swapVals u i) x =
      firstOccIdx u (if x = i then i + 1 else if x = i + 1 then i else x) :=
  indexOf_swapVals u i x

theorem lastOcc_swapVals (u : List Nat) (i x : Nat) :
    lastOccIdx (swapVals u i) x =
      lastOccIdx u (if x = i then i + 1 else if x = i + 1 then i else x) := by
  unfold lastOccIdx
  rw [swapVals_length, reverse_swapVals, indexOf_swapVals]

/-! ## The two graded-step counting lemmas -/

/-- Swapping an adjacent ascent adds exactly one right/position inversion. -/
theorem card_inv_rp_swapAdj {u : List Nat} {i0 : Nat} (h : i0 + 1 < u.length)
    (asc : u.getD i0 0 < u.getD (i0 + 1) 0) :
    (inversions_rp (swapAdj u i0)).card = (inversions_rp u).card + 1 := by
  rw [card_inversions_rp, card_inversions_rp, swapAdj_length h]
  have hS : ∀ x y : Nat, (swapAdj u i0).getD y 0 < (swapAdj u i0).getD x 0 ↔
      u.getD (if y = i0 then i0 + 1 else if y = i0 + 1 then i0 else y) 0 <
        u.getD (if x = i0 then i0 + 1 else if x = i0 + 1 then i0 else x) 0 := by
    intro x y
    rw [swapAdj_getD h, swapAdj_getD h]
  have hinv : ∀ k,
      (if (if k = i0 then i0 + 1 else if k = i0 + 1 then i0 else k) = i0 then i0 + 1
       else if (if k = i0 then i0 + 1 else if k = i0 + 1 then i0 else k) = i0 + 1 then i0
       else if k = i0 then i0 + 1 else if k = i0 + 1 then i0 else k) = k := by
    intro k
    split_ifs <;> omega
  refine card_filter_swap_succ (fun a b => u.getD b 0 < u.getD a 0)
    (fun a b => (swapAdj u i0).getD b 0 < (swapAdj u i0).getD a 0)
    (fun k => if k = i0 then i0 + 1 else if k = i0 + 1 then i0 else k)
    hinv ?_ (by omega : i0 < i0 + 1) h ?_ ?_ ?_ ?_ ?_
  · intro k hk
    simp only []
    split_ifs <;> omega
  · simp
  · intro a b hab hne
    have hne2 : ¬ (a = i0 ∧ b = i0 + 1) := by
      rintro ⟨rfl, rfl⟩
      exact hne rfl
    simp only []
    split_ifs <;> omega
  · simp only []
    omega
  · show (swapAdj u i0).getD (i0 + 1) 0 < (swapAdj u i0).getD i0 0
    rw [hS]
    simp only [if_pos rfl, if_neg (by omega : ¬ i0 + 1 = i0)]
    exact asc
  · intro a b hab hbN hne
    simp only []
    rw [hS, hinv a, hinv b]

/-- Exchanging the values `i`, `i+1` when the last `i` precedes the first
`i+1` adds exactly one left/value inversion. -/
theorem card_inv_lv_swapVals {u : List Nat} {i : Nat} (hpw : isPackedWord u)
    (h1 : 1 ≤ i) (h2 : i < maxL u)
    (hcond : lastOccIdx u i < firstOccIdx u (i + 1)) :
    (inversions_lv (swapVals u i)).card = (inversions_lv u).card + 1 := by
  have hmem := isPackedWord_iff.mp hpw
  have hmi : i ∈ u := hmem.2 i h1 (by omega)
  have hmi1 : i + 1 ∈ u := hmem.2 (i + 1) (by omega) (by omega)
  rw [card_inversions_lv, card_inversions_lv, maxL_swapVals hpw h1 h2]
  have hτ : ∀ x : Nat, (if x = i then i + 1 else if x = i + 1 then i else x) = x ∨
      x = i ∨ x = i + 1 := by
    intro x
    split_ifs <;> omega
  have hinv : ∀ k,
      (if (if k = i then i + 1 else if k = i + 1 then i else k) = i then i + 1
       else if (if k = i then i + 1 else if k = i + 1 then i else k) = i + 1 then i
       else if k = i then i + 1 else if k = i + 1 then i else k) = k := by
    intro k
    split_ifs <;> omega
  refine card_filter_swap_succ
    (fun a b => 1 ≤ a ∧ lastOccIdx u b < firstOccIdx u a)
    (fun a b => 1 ≤ a ∧ lastOccIdx (swapVals u i) b < firstOccIdx (swapVals u i) a)
    (fun k => if k = i then i + 1 else if k = i + 1 then i else k)
    hinv ?_ (by omega : i < i + 1) (by omega) ?_ ?_ ?_ ?_ ?_
  · intro k hk
    simp only []
    split_ifs <;> omega
  · simp
  · intro a b hab hne
    have hne2 : ¬ (a = i ∧ b = i + 1) := by
      rintro ⟨rfl, rfl⟩
      exact hne rfl
    simp only []
    split_ifs <;> omega
  · simp only []
    rintro ⟨-, hlt⟩
    have ha := firstOcc_le_lastOcc hmi
    have hb := firstOcc_le_lastOcc hmi1
    omega
  · show 1 ≤ i ∧ lastOccIdx (swapVals u i) (i + 1) < firstOccIdx (swapVals u i) i
    refine ⟨h1, ?_⟩
    rw [lastOcc_swapVals, firstOcc_swapVals,
      if_neg (by omega : ¬ i + 1 = i), if_pos rfl, if_pos rfl]
    exact hcond
  · intro a b hab hbN hne
    simp only []
    rw [lastOcc_swapVals, firstOcc_swapVals, hinv a, hinv b]
    have h1iff : 1 ≤ (if a = i then i + 1 else if a = i + 1 then i else a) ↔ 1 ≤ a := by
      split_ifs <;> omega
    rw [h1iff]
/-! ## C4: the weak orders are graded by inversion count -/

/-- C4: every right successor has exactly one more right/position
inversion; every left successor has exactly one more left/value
inversion; symmetrically each right (resp. left) predecessor has exactly
one fewer right/position (resp. left/value) inversion. -/
theorem C4_succ_pred_grading (u : List Nat) (hu : isPackedWord u) :
    (∀ v ∈ right_weak_order_succ u,
      (inversions_rp v).card = (inversions_rp u).card + 1) ∧
    (∀ v ∈ left_weak_order_succ u,
      (inversions_lv v).card = (inversions_lv u).card + 1) ∧
    (∀ v ∈ right_weak_order_pred u,
      (inversions_rp v).card + 1 = (inversions_rp u).card) ∧
    (∀ v ∈ left_weak_order_pred u,
      (inversions_lv v).card + 1 = (inversions_lv u).card) := by
  refine ⟨?_, ?_, ?_, ?_⟩
  · intro v hv
    rcases mem_right_weak_order_succ.mp hv with ⟨i, hi, hasc, rfl⟩
    exact card_inv_rp_swapAdj hi hasc
  · intro v hv
    rcases mem_left_weak_order_succ.mp hv with ⟨i, hi1, hi2, hc, rfl⟩
    exact card_inv_lv_swapVals hu hi1 hi2 hc
  · intro v hv
    rcases mem_right_weak_order_pred.mp hv with ⟨i, hi, hdesc, rfl⟩
    have hlen : i + 1 < (swapAdj u i).length := by
      rw [swapAdj_length hi]
      exact hi
    have hasc : (swapAdj u i).getD i 0 < (swapAdj u i).getD (i + 1) 0 := by
      rw [swapAdj_getD hi, swapAdj_getD hi, if_pos rfl, if_neg (by omega), if_pos rfl]
      exact hdesc
    have h5 := card_inv_rp_swapAdj hlen hasc
    rw [swapAdj_swapAdj hi] at h5
    omega
  · intro v hv
    rcases mem_left_weak_order_pred.mp hv with ⟨i, hi1, hi2, hc, rfl⟩
    have hpw2 : isPackedWord (swapVals u i) := isPackedWord_swapVals hu hi1 hi2
    have hm2 : i < maxL (swapVals u i) := by
      rw [maxL_swapVals hu hi1 hi2]
      exact hi2
    have hc2 : lastOccIdx (swapVals u i) i < firstOccIdx (swapVals u i) (i + 1) := by
      rw [lastOcc_swapVals, firstOcc_swapVals, if_pos rfl,
        if_neg (by omega : ¬ i + 1 = i), if_pos rfl]
      exact hc
    have h5 := card_inv_lv_swapVals hpw2 hi1 hm2 hc2
    rw [swapVals_swapVals] at h5
    omega

/-- C4 witness: the grading at `u = [1,2,1]`, whose right successor is
`[2,1,1]` (two inversions versus one). -/
theorem C4_succ_pred_grading_witness :
    isPackedWord [1, 2, 1] ∧ [2, 1, 1] ∈ right_weak_order_succ [1, 2, 1] ∧
    (inversions_rp [2, 1, 1]).card = (inversions_rp [1, 2, 1]).card + 1 :=
  ⟨by decide, by decide,
    (C4_succ_pred_grading [1, 2, 1] (by decide)).1 [2, 1, 1] (by decide)⟩

/-! ## `pack` and `sortedDistinct` on packed words -/

theorem pack_length (li : List Nat) : (pack li).length = li.length :=
  List.length_map _ _

theorem indexOf_range' {s n x : Nat} (h1 : s ≤ x) (h2 : x < s + n) :
    (List.range' s n).indexOf x = x - s := by
  induction n generalizing s with
  | zero => omega
  | succ k ih =>
    rw [List.range'_succ, List.indexOf_cons]
    by_cases hs : s = x
    · simp [hs, beq_iff_eq]
    · have hbeq : (s == x) = false := by simp [beq_iff_eq, hs]
      rw [hbeq, cond_false, ih (by omega) (by omega)]
      omega

theorem sortedDistinct_of_packed {w : List Nat} (hw : isPackedWord w) :
    sortedDistinct w = List.range' 1 (maxL w) := by
  have hc := isPackedWord_iff.mp hw
  refine eq_of_sorted_lt_of_mem_iff (sortedDistinct_sorted_lt _) ?_ ?_
  · exact List.pairwise_lt_range' _ _ 1 (Nat.le_refl 1)
  · intro x
    rw [mem_sortedDistinct, List.mem_range'_1]
    constructor
    · intro hx
      exact ⟨hc.1 x hx, by have := le_maxL hx; omega⟩
    · rintro ⟨h1, h2⟩
      exact hc.2 x h1 (by omega)

/-- `pack` is the identity on packed words. -/
theorem pack_of_packed {w : List Nat} (hw : isPackedWord w) : pack w = w := by
  unfold pack
  rw [sortedDistinct_of_packed hw]
  have hc := isPackedWord_iff.mp hw
  refine (List.map_congr_left ?_).trans (List.map_id w)
  intro x hx
  rw [indexOf_range' (hc.1 x hx) (by have := le_maxL hx; omega)]
  have := hc.1 x hx
  simp only [id_eq]
  omega

/-- `pack` of an arbitrary list of naturals is a valid packed word. -/
theorem isPackedWord_pack (li : List Nat) : isPackedWord (pack li) := by
  rw [isPackedWord_iff]
  have hnd : (sortedDistinct li).Nodup := sortedDistinct_nodup li
  constructor
  · intro x hx
    rcases List.mem_map.mp hx with ⟨y, hy, rfl⟩
    omega
  · intro k hk1 hkm
    -- the maximum of `pack li` is the index of some element plus one
    have hmax : maxL (pack li) ≤ (sortedDistinct li).length := by
      apply maxL_le
      intro x hx
      rcases List.mem_map.mp hx with ⟨y, hy, rfl⟩
      have hylt : (sortedDistinct li).indexOf y < (sortedDistinct li).length :=
        List.indexOf_lt_length.mpr (mem_sortedDistinct.mpr hy)
      omega
    have hks : k - 1 < (sortedDistinct li).length := by omega
    refine List.mem_map.mpr
      ⟨(sortedDistinct li)[k - 1], mem_sortedDistinct.mp (List.getElem_mem hks), ?_⟩
    rw [List.indexOf_getElem hnd (k - 1) hks]
    omega

/-! ## `positionsOf` -/

theorem enumFrom_shift {α : Type} (k : Nat) (w : List α) :
    List.enumFrom (k + 1) w = (List.enumFrom k w).map (Prod.map (· + 1) id) := by
  induction w generalizing k with
  | nil => rfl
  | cons a t ih =>
    rw [List.enumFrom_cons, List.enumFrom_cons, List.map_cons, ih (k + 1)]
    rfl

theorem positionsOf_cons (a : Nat) (w : List Nat) (m : Nat) :
    positionsOf (a :: w) m =
      (if a = m then [0] else []) ++ (positionsOf w m).map (· + 1) := by
  unfold positionsOf
  rw [List.enum_cons, List.filter_cons]
  have h1 : List.enumFrom 1 w = (w.enum).map (Prod.map (· + 1) id) := by
    have := enumFrom_shift 0 w
    rwa [List.enum] at *
  have h2 : (((w.enum).map (Prod.map (· + 1) id)).filter
        (fun p => decide (p.2 = m))).map Prod.fst =
      ((w.enum.filter (fun p => decide (p.2 = m))).map Prod.fst).map (· + 1) := by
    rw [List.filter_map, List.map_map, List.map_map]
    rw [List.filter_congr]
    · congr 1
    · intro p hp
      rcases p with ⟨x, y⟩
      rfl
  by_cases ha : a = m
  · rw [if_pos (by simpa using ha), if_pos ha]
    rw [List.map_cons, h1, h2]
    rfl
  · rw [if_neg (by simpa using ha), if_neg ha, List.nil_append]
    rw [h1, h2]

theorem mem_positionsOf {w : List Nat} {m x : Nat} (hx : x ∈ positionsOf w m) :
    x < w.length := by
  induction w generalizing x with
  | nil => cases hx
  | cons a t ih =>
    rw [positionsOf_cons] at hx
    rcases List.mem_append.mp hx with h | h
    · split_ifs at h with h2
      · simp at h
        simp [h]
      · cases h
    · rcases List.mem_map.mp h with ⟨y, hy, rfl⟩
      have := ih hy
      simp
      omega

theorem positionsOf_sorted (w : List Nat) (m : Nat) :
    (positionsOf w m).Sorted (· < ·) := by
  induction w with
  | nil => exact List.sorted_nil
  | cons a t ih =>
    rw [positionsOf_cons]
    by_cases ha : a = m
    · rw [if_pos ha]
      rw [List.singleton_append, List.sorted_cons]
      constructor
      · intro b hb
        rcases List.mem_map.mp hb with ⟨y, hy, rfl⟩
        omega
      · exact ih.map _ (by intro a b hab; omega)
    · rw [if_neg ha, List.nil_append]
      exact ih.map _ (by intro a b hab; omega)

theorem positionsOf_ne_nil {w : List Nat} {m : Nat} (hm : m ∈ w) :
    positionsOf w m ≠ [] := by
  induction w with
  | nil => cases hm
  | cons a t ih =>
    rw [positionsOf_cons]
    rcases List.mem_cons.mp hm with rfl | hm2
    · simp
    · intro hc
      rcases List.append_eq_nil.mp hc with ⟨-, h2⟩
      exact ih hm2 (List.map_eq_nil.mp h2)

theorem length_filter_add_length_positionsOf {w : List Nat} {m : Nat}
    (hle : ∀ x ∈ w, x ≤ m) :
    (w.filter (fun x => x < m)).length + (positionsOf w m).length = w.length := by
  induction w with
  | nil => rfl
  | cons a t ih =>
    have hat : ∀ x ∈ t, x ≤ m := fun x hx => hle x (List.mem_cons_of_mem _ hx)
    have ha := hle a (List.mem_cons_self _ _)
    rw [positionsOf_cons, List.filter_cons]
    by_cases h : a = m
    · rw [if_pos h, if_neg (by simp; omega)]
      simp only [List.singleton_append, List.length_cons, List.length_map]
      have := ih hat
      simp only [List.length_append, List.length_map] at *
      omega
    · rw [if_neg h, if_pos (by simp; omega), List.nil_append]
      simp only [List.length_cons, List.length_map]
      have := ih hat
      omega

/-! ## Folded minima and the global-descent characterization -/

theorem foldl_min_le_init (l : List Nat) (a : Nat) : l.foldl min a ≤ a := by
  induction l generalizing a with
  | nil => exact le_refl a
  | cons x t ih =>
    rw [List.foldl_cons]
    exact le_trans (ih (min a x)) (by omega)

theorem foldl_min_le_mem {l : List Nat} {x : Nat} (hx : x ∈ l) (a : Nat) :
    l.foldl min a ≤ x := by
  induction l generalizing a with
  | nil => cases hx
  | cons y t ih =>
    rw [List.foldl_cons]
    rcases List.mem_cons.mp hx with rfl | h
    · exact le_trans (foldl_min_le_init t _) (by omega)
    · exact ih h _

theorem foldl_min_mem_or (l : List Nat) (a : Nat) :
    l.foldl min a = a ∨ l.foldl min a ∈ l := by
  induction l generalizing a with
  | nil => exact Or.inl rfl
  | cons y t ih =>
    rw [List.foldl_cons]
    rcases ih (min a y) with h | h
    · rcases Nat.le_total a y with h2 | h2
      · rw [h, min_eq_left h2]
        exact Or.inl rfl
      · rw [h, min_eq_right h2]
        exact Or.inr (List.mem_cons_self _ _)
    · exact Or.inr (List.mem_cons_of_mem _ h)

/-- The characterization of a global descent position: `0 < d < n` and
every letter at or before `d` exceeds every letter after `d`. -/
theorem mem_globalDescents {w : List Nat} {d : Nat} :
    d ∈ globalDescents w false ↔
      0 < d ∧ d < w.length ∧ ∀ x ∈ w.take d, ∀ y ∈ w.drop d, y < x := by
  have hbase : globalDescents w false =
      ((List.range (w.length - 1)).filter
        (fun i => decide (maxL (w.drop (i + 1)) < (w.take (i + 1)).foldl min (maxL w)))).map
      (· + 1) := by
    unfold globalDescents
    simp
  rw [hbase, List.mem_map]
  constructor
  · rintro ⟨i, hi, rfl⟩
    rw [List.mem_filter, List.mem_range, decide_eq_true_eq] at hi
    rcases hi with ⟨hilt, hcond⟩
    refine ⟨by omega, by omega, ?_⟩
    intro x hx y hy
    calc y ≤ maxL (w.drop (i + 1)) := le_maxL hy
      _ < (w.take (i + 1)).foldl min (maxL w) := hcond
      _ ≤ x := foldl_min_le_mem hx _
  · rintro ⟨hd0, hdn, hlt⟩
    refine ⟨d - 1, ?_, by omega⟩
    rw [List.mem_filter, List.mem_range, decide_eq_true_eq]
    have hd1 : d - 1 + 1 = d := by omega
    rw [hd1]
    refine ⟨by omega, ?_⟩
    have hdropne : w.drop d ≠ [] := by
      rw [← List.length_pos, List.length_drop]
      omega
    have htakene : w.take d ≠ [] := by
      rw [← List.length_pos, List.length_take]
      omega
    have hy := maxL_mem hdropne
    rcases foldl_min_mem_or (w.take d) (maxL w) with hfe | hfm
    · rw [hfe]
      obtain ⟨x, hx⟩ := List.exists_mem_of_ne_nil _ htakene
      calc maxL (w.drop d) < x := hlt x hx _ hy
        _ ≤ maxL w := le_maxL (List.take_subset d w hx)
    · exact hlt _ hfm _ hy

theorem globalDescents_true (w : List Nat) :
    globalDescents w true = globalDescents w false ++ [w.length] := by
  unfold globalDescents
  simp

theorem globalDescents_sorted (w : List Nat) :
    (globalDescents w false).Sorted (· < ·) := by
  have hbase : globalDescents w false =
      ((List.range (w.length - 1)).filter
        (fun i => decide (maxL (w.drop (i + 1)) < (w.take (i + 1)).foldl min (maxL w)))).map
      (· + 1) := by
    unfold globalDescents
    simp
  rw [hbase]
  have hp : (List.filter
      (fun i => decide (maxL (List.drop (i + 1) w) < List.foldl min (maxL w) (List.take (i + 1) w)))
      (List.range (w.length - 1))).Pairwise (· < ·) :=
    (List.pairwise_lt_range _).sublist (List.filter_sublist _)
  exact hp.map _ (fun _ _ hab => Nat.add_lt_add_right hab 1)

/-! ## Splitting a packed word at a global descent -/

/-- Splitting a packed word at a global descent: the suffix is packed, the
prefix carries the top values, its re-packing subtracts `max(suffix)`, and
shifting back up recovers the prefix. -/
theorem split_block_facts {w : List Nat} {d : Nat} (hw : isPackedWord w)
    (hd0 : 0 < d) (hdn : d < w.length)
    (hlt : ∀ x ∈ w.take d, ∀ y ∈ w.drop d, y < x) :
    isPackedWord (w.drop d) ∧
    maxL (w.take d) = maxL w ∧
    pack (w.take d) = (w.take d).map (fun x => x - maxL (w.drop d)) ∧
    maxL (pack (w.take d)) = maxL w - maxL (w.drop d) ∧
    (pack (w.take d)).map (fun x => x + maxL (w.drop d)) = w.take d := by
  have hc := isPackedWord_iff.mp hw
  have hvne : w.drop d ≠ [] := by
    rw [← List.length_pos, List.length_drop]
    omega
  have hune : w.take d ≠ [] := by
    rw [← List.length_pos, List.length_take]
    omega
  have hmemw : ∀ z : Nat, z ∈ w ↔ z ∈ w.take d ∨ z ∈ w.drop d := by
    intro z
    rw [← List.mem_append, List.take_append_drop]
  have hmv_lt : ∀ x ∈ w.take d, maxL (w.drop d) < x := fun x hx => hlt x hx _ (maxL_mem hvne)
  have hmvM : maxL (w.drop d) ≤ maxL w :=
    maxL_le (fun x hx => le_maxL ((hmemw x).mpr (Or.inr hx)))
  have hmvltM : maxL (w.drop d) < maxL w := by
    obtain ⟨x0, hx0⟩ := List.exists_mem_of_ne_nil _ hune
    have h1 := hmv_lt x0 hx0
    have h2 := le_maxL ((hmemw x0).mpr (Or.inl hx0))
    omega
  have hvpacked : isPackedWord (w.drop d) := by
    rw [isPackedWord_iff]
    refine ⟨fun x hx => hc.1 x ((hmemw x).mpr (Or.inr hx)), ?_⟩
    intro k hk1 hk2
    have hkw : k ∈ w := hc.2 k hk1 (le_trans hk2 hmvM)
    rcases (hmemw k).mp hkw with hku | hkv
    · exact absurd (hmv_lt k hku) (by omega)
    · exact hkv
  have humem : ∀ x : Nat, x ∈ w.take d ↔ maxL (w.drop d) + 1 ≤ x ∧ x ≤ maxL w := by
    intro x
    constructor
    · intro hx
      exact ⟨by have := hmv_lt x hx; omega, le_maxL ((hmemw x).mpr (Or.inl hx))⟩
    · rintro ⟨h1, h2⟩
      have hxw : x ∈ w := hc.2 x (by omega) h2
      rcases (hmemw x).mp hxw with hxu | hxv
      · exact hxu
      · exact absurd (le_maxL hxv) (by omega)
  have hMmem : maxL w ∈ w.take d := (humem (maxL w)).mpr ⟨by omega, le_refl _⟩
  have hMu : maxL (w.take d) = maxL w := by
    apply le_antisymm
    · exact maxL_le (fun x hx => le_maxL ((hmemw x).mpr (Or.inl hx)))
    · exact le_maxL hMmem
  have hsd : sortedDistinct (w.take d) =
      List.range' (maxL (w.drop d) + 1) (maxL w - maxL (w.drop d)) := by
    refine eq_of_sorted_lt_of_mem_iff (sortedDistinct_sorted_lt _) ?_ ?_
    · exact List.pairwise_lt_range' _ _ 1 (Nat.le_refl 1)
    · intro x
      rw [mem_sortedDistinct, List.mem_range'_1, humem x]
      constructor
      · rintro ⟨h1, h2⟩
        exact ⟨h1, by omega⟩
      · rintro ⟨h1, h2⟩
        exact ⟨h1, by omega⟩
  have hpacku : pack (w.take d) = (w.take d).map (fun x => x - maxL (w.drop d)) := by
    unfold pack
    rw [hsd]
    refine List.map_congr_left ?_
    intro x hx
    have hxb := (humem x).mp hx
    rw [indexOf_range' (by omega) (by omega)]
    omega
  have hMpu : maxL (pack (w.take d)) = maxL w - maxL (w.drop d) := by
    rw [hpacku]
    apply le_antisymm
    · apply maxL_le
      intro x hx
      rcases List.mem_map.mp hx with ⟨y, hy, rfl⟩
      have := ((humem y).mp hy).2
      omega
    · exact le_maxL (List.mem_map.mpr ⟨maxL w, hMmem, rfl⟩)
  have hback : (pack (w.take d)).map (fun x => x + maxL (w.drop d)) = w.take d := by
    rw [hpacku, List.map_map]
    refine (List.map_congr_left ?_).trans (List.map_id _)
    intro x hx
    have := ((humem x).mp hx).1
    simp only [Function.comp_apply, id_eq]
    omega
  exact ⟨hvpacked, hMu, hpacku, hMpu, hback⟩

/-! ## Shifting global descents across a split -/

theorem gd_drop_iff {w : List Nat} {d k : Nat}
    (hd0 : 0 < d) (hdn : d < w.length)
    (hlt : ∀ x ∈ w.take d, ∀ y ∈ w.drop d, y < x) (hk0 : 0 < k) :
    k ∈ globalDescents (w.drop d) false ↔ (d + k) ∈ globalDescents w false := by
  rw [mem_globalDescents, mem_globalDescents, List.length_drop]
  have hdk_take : w.take (d + k) = w.take d ++ (w.drop d).take k := List.take_add w d k
  have hdk_drop : (w.drop d).drop k = w.drop (d + k) := by
    rw [List.drop_drop, Nat.add_comm]
  constructor
  · rintro ⟨_, hklen, hblk⟩
    refine ⟨by omega, by omega, ?_⟩
    intro x hx y hy
    rw [hdk_take, List.mem_append] at hx
    rw [← hdk_drop] at hy
    rcases hx with hx1 | hx2
    · exact hlt x hx1 y (List.drop_subset _ _ hy)
    · exact hblk x hx2 y hy
  · rintro ⟨_, hlen2, hblk⟩
    refine ⟨hk0, by omega, ?_⟩
    intro x hx y hy
    rw [hdk_drop] at hy
    refine hblk x ?_ y hy
    rw [hdk_take, List.mem_append]
    exact Or.inr hx

theorem globalDescents_drop {w : List Nat} {d : Nat} {ds : List Nat}
    (hgd : globalDescents w false = d :: ds) :
    globalDescents (w.drop d) false = ds.map (fun x => x - d) := by
  have hsort := globalDescents_sorted w
  rw [hgd] at hsort
  have hdmem : d ∈ globalDescents w false := by
    rw [hgd]
    exact List.mem_cons_self _ _
  have hdp := mem_globalDescents.mp hdmem
  have hds_gt : ∀ e ∈ ds, d < e := (List.pairwise_cons.mp hsort).1
  have hds_sort : ds.Sorted (· < ·) := (List.pairwise_cons.mp hsort).2
  refine eq_of_sorted_lt_of_mem_iff (globalDescents_sorted _) ?_ ?_
  · rw [List.Sorted, List.pairwise_map]
    refine hds_sort.imp_of_mem ?_
    intro a b ha hb hab
    have := hds_gt a ha
    omega
  · intro x
    rw [List.mem_map]
    constructor
    · intro hx
      have hx0 : 0 < x := (mem_globalDescents.mp hx).1
      have hx2 := (gd_drop_iff hdp.1 hdp.2.1 hdp.2.2 hx0).mp hx
      rw [hgd] at hx2
      rcases List.mem_cons.mp hx2 with heq | hmem
      · omega
      · exact ⟨d + x, hmem, Nat.add_sub_cancel_left d x⟩
    · rintro ⟨e, he, rfl⟩
      have hde := hds_gt e he
      have hem : e ∈ globalDescents w false := by
        rw [hgd]
        exact List.mem_cons_of_mem _ he
      have hem2 : d + (e - d) ∈ globalDescents w false := by
        have he2 : d + (e - d) = e := by omega
        rw [he2]
        exact hem
      exact (gd_drop_iff hdp.1 hdp.2.1 hdp.2.2 (by omega)).mpr hem2

theorem gdfSlices_shift (w : List Nat) (d : Nat) :
    ∀ (l : List Nat) (i : Nat), d ≤ i → (∀ j ∈ l, d ≤ j) →
    gdfSlices w i l = gdfSlices (w.drop d) (i - d) (l.map (fun x => x - d)) := by
  intro l
  induction l with
  | nil =>
    intro i _ _
    rfl
  | cons j rest ih =>
    intro i hdi hl
    rw [List.map_cons]
    simp only [gdfSlices]
    have h1 : ((w.drop d).drop (i - d)).take (j - d - (i - d)) = (w.drop i).take (j - i) := by
      rw [List.drop_drop]
      have e1 : d + (i - d) = i := by omega
      rw [e1]
      have e2 : j - d - (i - d) = j - i := by omega
      rw [e2]
    rw [h1]
    congr 1
    exact ih j (hl j (List.mem_cons_self _ _)) (fun e he => hl e (List.mem_cons_of_mem _ he))

theorem factorization_of_cons (w : List Nat) (d : Nat) (rest : List Nat)
    (h : globalDescents w true = d :: rest) :
    globalDescentsFactorization w = pack (w.take d) :: gdfSlices w d rest := by
  unfold globalDescentsFactorization
  rw [h]

/-- Cutting off the first global-descent block: the factorization of `w` is
the packed prefix followed by the factorization of the suffix. -/
theorem factorization_cons {w : List Nat} {d : Nat} {ds : List Nat}
    (hgd : globalDescents w false = d :: ds) :
    globalDescentsFactorization w =
      pack (w.take d) :: globalDescentsFactorization (w.drop d) := by
  have hdmem : d ∈ globalDescents w false := by
    rw [hgd]
    exact List.mem_cons_self _ _
  have hdp := mem_globalDescents.mp hdmem
  have hsort := globalDescents_sorted w
  rw [hgd] at hsort
  have hds_gt : ∀ e ∈ ds, d < e := (List.pairwise_cons.mp hsort).1
  have hvlen : (w.drop d).length = w.length - d := by rw [List.length_drop]
  have hgdv : globalDescents (w.drop d) false = ds.map (fun x => x - d) :=
    globalDescents_drop hgd
  have hL : globalDescents w true = d :: (ds ++ [w.length]) := by
    rw [globalDescents_true, hgd]
    rfl
  rw [factorization_of_cons w d _ hL]
  cases ds with
  | nil =>
    have hR : globalDescents (w.drop d) true = (w.length - d) :: [] := by
      rw [globalDescents_true, hgdv, hvlen]
      rfl
    rw [factorization_of_cons _ _ _ hR]
    simp only [List.nil_append, gdfSlices]
  | cons e ds2 =>
    have hR : globalDescents (w.drop d) true =
        (e - d) :: (ds2.map (fun x => x - d) ++ [w.length - d]) := by
      rw [globalDescents_true, hgdv, hvlen]
      rfl
    rw [factorization_of_cons _ _ _ hR]
    simp only [List.cons_append, gdfSlices, List.append_eq]
    congr 1
    rw [gdfSlices_shift w d (ds2 ++ [w.length]) e
      (le_of_lt (hds_gt e (List.mem_cons_self _ _))) ?_]
    · rw [List.map_append]
      rfl
    · intro j hj
      rcases List.mem_append.mp hj with hj1 | hj2
      · exact le_of_lt (hds_gt j (List.mem_cons_of_mem _ hj1))
      · have : j = w.length := by simpa using hj2
        omega

/-! ## The shifted-concatenation fold and factorization properties -/

theorem foldl_sc_eq : ∀ (l : List (List Nat)) (a : List Nat),
    l.foldl l_shifted_concat a =
      a.map (fun x => x + (l.map maxL).sum) ++ l.foldl l_shifted_concat [] := by
  intro l
  induction l with
  | nil =>
    intro a
    simp
  | cons B Bs ih =>
    intro a
    rw [List.foldl_cons, ih (l_shifted_concat a B), List.foldl_cons]
    have hscB : l_shifted_concat [] B = B := by simp [l_shifted_concat]
    rw [hscB, ih B]
    simp only [l_shifted_concat, List.map_append, List.map_map, List.map_cons, List.sum_cons]
    rw [List.append_assoc]
    congr 1
    refine List.map_congr_left ?_
    intro x _
    simp only [Function.comp_apply]
    omega

theorem factorization_no_descent {w : List Nat} (hw : isPackedWord w) (hne : w ≠ [])
    (hgd : globalDescents w false = []) :
    globalDescentsFactorization w = [w] := by
  have hL : globalDescents w true = w.length :: [] := by
    rw [globalDescents_true, hgd]
    rfl
  rw [factorization_of_cons _ _ _ hL, List.take_length, pack_of_packed hw]
  rfl

theorem maxL_map_sub (l : List Nat) (c : Nat) :
    maxL (l.map (fun x => x - c)) = maxL l - c := by
  induction l with
  | nil => simp [maxL]
  | cons a t ih =>
    rw [List.map_cons, maxL_cons, maxL_cons, ih]
    omega

theorem foldl_min_map_sub (l : List Nat) (c : Nat) :
    ∀ A : Nat, (l.map (fun x => x - c)).foldl min (A - c) = l.foldl min A - c := by
  induction l with
  | nil =>
    intro A
    rfl
  | cons a t ih =>
    intro A
    rw [List.map_cons, List.foldl_cons, List.foldl_cons]
    have h1 : min (A - c) (a - c) = min A a - c := by omega
    rw [h1, ih]

/-- Subtracting a constant below every letter does not change the global
descents. -/
theorem globalDescents_map_sub {u : List Nat} {c : Nat} (hc : ∀ x ∈ u, c < x) :
    globalDescents (u.map (fun x => x - c)) false = globalDescents u false := by
  have hb1 : ∀ (v : List Nat), globalDescents v false =
      ((List.range (v.length - 1)).filter
        (fun i => decide (maxL (v.drop (i + 1)) < (v.take (i + 1)).foldl min (maxL v)))).map
      (· + 1) := by
    intro v
    unfold globalDescents
    simp
  rw [hb1, hb1, List.length_map]
  congr 1
  apply List.filter_congr
  intro i hi
  rw [List.mem_range] at hi
  rw [decide_eq_decide]
  rw [← List.map_drop, ← List.map_take, maxL_map_sub, maxL_map_sub, foldl_min_map_sub]
  have h1 : c < maxL (u.drop (i + 1)) := by
    have hne : u.drop (i + 1) ≠ [] := by
      rw [← List.length_pos, List.length_drop]
      omega
    exact hc _ (List.drop_subset _ _ (maxL_mem hne))
  have h2 : c < (u.take (i + 1)).foldl min (maxL u) := by
    rcases foldl_min_mem_or (u.take (i + 1)) (maxL u) with h | h
    · rw [h]
      have hune : u ≠ [] := by
        rw [← List.length_pos]
        omega
      exact hc _ (maxL_mem hune)
    · exact hc _ (List.take_subset _ _ h)
  omega

/-- A global descent of the prefix of a split at a global descent is a
global descent of the whole word. -/
theorem descent_extend {w : List Nat} {d e : Nat}
    (hlt : ∀ x ∈ w.take d, ∀ y ∈ w.drop d, y < x)
    (he : e ∈ globalDescents (w.take d) false) :
    e ∈ globalDescents w false := by
  obtain ⟨he0, helen, heblk⟩ := mem_globalDescents.mp he
  rw [List.length_take] at helen
  have hte : w.take e = (w.take d).take e := by
    rw [List.take_take, min_eq_left (by omega : e ≤ d)]
  have hde : w.drop e = (w.take d).drop e ++ w.drop d := by
    conv_lhs => rw [← List.take_append_drop d w]
    rw [List.drop_append_eq_append_drop]
    have h0 : e - (w.take d).length = 0 := by
      rw [List.length_take]
      omega
    rw [h0, List.drop_zero]
  rw [mem_globalDescents]
  refine ⟨he0, by omega, ?_⟩
  intro x hx y hy
  rw [hte] at hx
  rw [hde] at hy
  rcases List.mem_append.mp hy with hy1 | hy2
  · exact heblk x hx y hy1
  · exact hlt x (List.take_subset _ _ hx) y hy2

/-- The first factorization block (the packed prefix up to the first global
descent) has no global descents. -/
theorem head_block_no_descent {w : List Nat} {d : Nat} {ds : List Nat}
    (hw : isPackedWord w) (hgd : globalDescents w false = d :: ds) :
    globalDescents (pack (w.take d)) false = [] := by
  have hdmem : d ∈ globalDescents w false := by
    rw [hgd]
    exact List.mem_cons_self _ _
  obtain ⟨hd0, hdn, hlt⟩ := mem_globalDescents.mp hdmem
  obtain ⟨_, _, hpacku, _, _⟩ := split_block_facts hw hd0 hdn hlt
  have hvne : w.drop d ≠ [] := by
    rw [← List.length_pos, List.length_drop]
    omega
  have hmv_lt : ∀ x ∈ w.take d, maxL (w.drop d) < x := fun x hx => hlt x hx _ (maxL_mem hvne)
  rw [hpacku, globalDescents_map_sub hmv_lt]
  by_contra hnegd
  obtain ⟨e, he⟩ := List.exists_mem_of_ne_nil _ hnegd
  have hep := mem_globalDescents.mp he
  have hed : e < d := by
    have := hep.2.1
    rw [List.length_take] at this
    omega
  have hew : e ∈ globalDescents w false := descent_extend hlt he
  rw [hgd] at hew
  have hsort := globalDescents_sorted w
  rw [hgd] at hsort
  rcases List.mem_cons.mp hew with rfl | hmem
  · omega
  · have := (List.pairwise_cons.mp hsort).1 e hmem
    omega

theorem factorization_props_aux : ∀ (n : Nat) (w : List Nat), w.length ≤ n →
    isPackedWord w → w ≠ [] →
    (∀ b ∈ globalDescentsFactorization w,
        isPackedWord b ∧ b ≠ [] ∧ globalDescents b false = []) ∧
    ((globalDescentsFactorization w).map List.length).sum = w.length ∧
    ((globalDescentsFactorization w).map maxL).sum = maxL w ∧
    (globalDescentsFactorization w).foldl l_shifted_concat [] = w := by
  intro n
  induction n with
  | zero =>
    intro w hlen hw hne
    exact absurd (List.length_pos.mpr hne) (by omega)
  | succ n ih =>
    intro w hlen hw hne
    cases hgd : globalDescents w false with
    | nil =>
      rw [factorization_no_descent hw hne hgd]
      refine ⟨?_, by simp, by simp, by simp [l_shifted_concat]⟩
      intro b hb
      rcases List.mem_singleton.mp hb with rfl
      exact ⟨hw, hne, hgd⟩
    | cons d ds =>
      have hdmem : d ∈ globalDescents w false := by
        rw [hgd]
        exact List.mem_cons_self _ _
      obtain ⟨hd0, hdn, hlt⟩ := mem_globalDescents.mp hdmem
      obtain ⟨hvpacked, hMu, hpacku, hMpu, hback⟩ := split_block_facts hw hd0 hdn hlt
      have hvne : w.drop d ≠ [] := by
        rw [← List.length_pos, List.length_drop]
        omega
      have hvlen : (w.drop d).length = w.length - d := by rw [List.length_drop]
      have ihv := ih (w.drop d) (by rw [hvlen]; omega) hvpacked hvne
      obtain ⟨ihv1, ihv2, ihv3, ihv4⟩ := ihv
      rw [factorization_cons hgd]
      refine ⟨?_, ?_, ?_, ?_⟩
      · intro b hb
        rcases List.mem_cons.mp hb with rfl | hbv
        · refine ⟨isPackedWord_pack _, ?_, head_block_no_descent hw hgd⟩
          rw [← List.length_pos, pack_length, List.length_take]
          omega
        · exact ihv1 b hbv
      · rw [List.map_cons, List.sum_cons, ihv2, hvlen, pack_length, List.length_take]
        omega
      · rw [List.map_cons, List.sum_cons, ihv3, hMpu]
        have hvM : maxL (w.drop d) ≤ maxL w :=
          maxL_le (fun x hx => le_maxL (List.drop_subset _ _ hx))
        omega
      · rw [List.foldl_cons]
        have hsc0 : l_shifted_concat [] (pack (w.take d)) = pack (w.take d) := by
          simp [l_shifted_concat]
        rw [hsc0, foldl_sc_eq _ (pack (w.take d)), ihv3, ihv4, hback,
          List.take_append_drop]

/-- The global-descent factorization of a nonempty packed word: every block
is a nonempty packed word with no global descents, the lengths sum to the
length, the maxima sum to the maximum, and the shifted-concatenation fold
reconstructs the word. -/
theorem factorization_props {w : List Nat} (hw : isPackedWord w) (hne : w ≠ []) :
    (∀ b ∈ globalDescentsFactorization w,
        isPackedWord b ∧ b ≠ [] ∧ globalDescents b false = []) ∧
    ((globalDescentsFactorization w).map List.length).sum = w.length ∧
    ((globalDescentsFactorization w).map maxL).sum = maxL w ∧
    (globalDescentsFactorization w).foldl l_shifted_concat [] = w :=
  factorization_props_aux w.length w (le_refl _) hw hne

/-! ## Position and insertion lemmas for the plain codec -/

theorem mem_positionsOf_iff {w : List Nat} {m x : Nat} :
    x ∈ positionsOf w m ↔ ∃ h : x < w.length, w[x] = m := by
  induction w generalizing x with
  | nil =>
    simp [positionsOf]
  | cons a t ih =>
    rw [positionsOf_cons, List.mem_append, List.mem_map]
    constructor
    · rintro (hx0 | ⟨y, hy, rfl⟩)
      · have hx : x = 0 ∧ a = m := by
          by_cases ham : a = m
          · simp [ham] at hx0
            exact ⟨hx0, ham⟩
          · simp [ham] at hx0
        rcases hx with ⟨rfl, rfl⟩
        exact ⟨by simp, by simp⟩
      · obtain ⟨h, hm⟩ := ih.mp hy
        exact ⟨by simpa using Nat.succ_lt_succ h, by simpa using hm⟩
    · rintro ⟨h, hm⟩
      cases x with
      | zero =>
        left
        simp at hm
        simp [hm]
      | succ y =>
        right
        refine ⟨y, ih.mpr ⟨by simpa using Nat.lt_of_succ_lt_succ h, by simpa using hm⟩, rfl⟩

theorem sorted_lt_headD_le {l : List Nat} (hs : l.Sorted (· < ·)) {x : Nat} (hx : x ∈ l) :
    l.headD 0 ≤ x := by
  cases l with
  | nil => cases hx
  | cons a t =>
    rcases List.mem_cons.mp hx with rfl | hxt
    · exact le_refl x
    · exact le_of_lt ((List.pairwise_cons.mp hs).1 x hxt)

/-- A strictly sorted list whose elements lie in an interval of exactly its
length is that whole interval. -/
theorem sorted_lt_eq_range' {l : List Nat} {s : Nat} (hs : l.Sorted (· < ·))
    (hb : ∀ x ∈ l, s ≤ x ∧ x < s + l.length) :
    l = List.range' s l.length := by
  have hnd : l.Nodup := hs.nodup
  have hndr : (List.range' s l.length).Nodup :=
    (List.pairwise_lt_range' _ _ 1 (Nat.le_refl 1)).nodup
  have hsub : l.toFinset ⊆ (List.range' s l.length).toFinset := by
    intro x hx
    rw [List.mem_toFinset] at hx ⊢
    rw [List.mem_range'_1]
    exact hb x hx
  have hcard : (List.range' s l.length).toFinset.card ≤ l.toFinset.card := by
    rw [List.toFinset_card_of_nodup hnd, List.toFinset_card_of_nodup hndr,
      List.length_range']
  have hfeq := Finset.eq_of_subset_of_card_le hsub hcard
  refine eq_of_sorted_lt_of_mem_iff hs (List.pairwise_lt_range' _ _ 1 (Nat.le_refl 1)) ?_
  intro x
  rw [← List.mem_toFinset, ← List.mem_toFinset (l := List.range' s l.length), hfeq]

theorem insertAt_length_eq (r : List Nat) (m : Nat) :
    insertAt r r.length m = r ++ [m] := by
  unfold insertAt
  rw [List.take_length, List.drop_length]

theorem insertAll_range'_length (m : Nat) :
    ∀ (n : Nat) (r : List Nat), insertAll r (List.range' r.length n) m =
      r ++ List.replicate n m := by
  intro n
  induction n with
  | zero =>
    intro r
    simp [insertAll]
  | succ k ih =>
    intro r
    rw [List.range'_succ]
    unfold insertAll
    rw [List.foldl_cons]
    show insertAll (insertAt r r.length m) (List.range' (r.length + 1) k) m = _
    have hlen : (r ++ [m]).length = r.length + 1 := by simp
    rw [insertAt_length_eq, ← hlen, ih (r ++ [m])]
    rw [List.append_assoc]
    rfl

theorem insertAll_map_succ (m : Nat) :
    ∀ (l : List Nat) (r : List Nat) (a : Nat),
      insertAll (a :: r) (l.map (fun x => x + 1)) m = a :: insertAll r l m := by
  intro l
  induction l with
  | nil =>
    intro r a
    rfl
  | cons p rest ih =>
    intro r a
    rw [List.map_cons]
    unfold insertAll
    rw [List.foldl_cons, List.foldl_cons]
    show insertAll (insertAt (a :: r) (p + 1) m) (rest.map (fun x => x + 1)) m =
      a :: insertAll (insertAt r p m) rest m
    have h1 : insertAt (a :: r) (p + 1) m = a :: insertAt r p m := by
      unfold insertAt
      rw [List.take_succ_cons, List.drop_succ_cons]
      rfl
    rw [h1, ih]

/-- Reinserting the maximal letter at its recorded positions undoes the
filtering that removed it. -/
theorem insertAll_positionsOf {m : Nat} :
    ∀ {w : List Nat}, (∀ x ∈ w, x ≤ m) →
      insertAll (w.filter (fun x => x < m)) (positionsOf w m) m = w := by
  intro w
  induction w with
  | nil =>
    intro _
    rfl
  | cons a t ih =>
    intro hle
    have hat : ∀ x ∈ t, x ≤ m := fun x hx => hle x (List.mem_cons_of_mem _ hx)
    rw [positionsOf_cons]
    by_cases ham : a = m
    · subst ham
      have hf : (a :: t).filter (fun x => x < a) = t.filter (fun x => x < a) := by
        rw [List.filter_cons]
        simp
      rw [hf, if_pos rfl]
      show insertAll (t.filter (fun x => x < a)) (0 :: (positionsOf t a).map (fun x => x + 1)) a
        = a :: t
      unfold insertAll
      rw [List.foldl_cons]
      show insertAll (insertAt (t.filter (fun x => x < a)) 0 a)
        ((positionsOf t a).map (fun x => x + 1)) a = a :: t
      have h0 : insertAt (t.filter (fun x => x < a)) 0 a = a :: t.filter (fun x => x < a) := rfl
      rw [h0, insertAll_map_succ, ih hat]
    · have haltm : a < m := lt_of_le_of_ne (hle a (List.mem_cons_self _ _)) ham
      have hf : (a :: t).filter (fun x => x < m) = a :: t.filter (fun x => x < m) := by
        rw [List.filter_cons]
        simp [haltm]
      rw [hf, if_neg ham, List.nil_append, insertAll_map_succ, ih hat]

/-! ## Arithmetic facts for the plain encoder branches -/

theorem cutLoop_spec (pm0 lenFull : Nat) :
    ∀ (rest : List Nat) (cut s : Nat),
      ∃ k ≤ rest.length, cutLoop pm0 lenFull rest cut s = (cut + k, s + (rest.take k).sum) ∧
        (k = 0 ∨ s + (rest.take (k - 1)).sum ≤ pm0) := by
  intro rest
  induction rest with
  | nil =>
    intro cut s
    exact ⟨0, le_refl 0, by simp [cutLoop], Or.inl rfl⟩
  | cons len r ih =>
    intro cut s
    by_cases h : s ≤ pm0 ∧ s < lenFull
    · obtain ⟨k, hk, heq, hbound⟩ := ih (cut + 1) (s + len)
      refine ⟨k + 1, by simp only [List.length_cons]; omega, ?_, ?_⟩
      · simp only [cutLoop]
        rw [if_pos h, heq, List.take_succ_cons, List.sum_cons]
        rw [Prod.mk.injEq]
        constructor <;> omega
      · right
        cases k with
        | zero => simpa using h.1
        | succ k2 =>
          rcases hbound with hk0 | hb
          · exact absurd hk0 (Nat.succ_ne_zero k2)
          · rw [Nat.add_sub_cancel] at hb ⊢
            rw [List.take_succ_cons, List.sum_cons]
            omega
    · refine ⟨0, Nat.zero_le _, ?_, Or.inl rfl⟩
      simp only [cutLoop]
      rw [if_neg h]
      simp

theorem sum_take_getD {l : List Nat} {k : Nat} (hk : k < l.length) :
    (l.take (k + 1)).sum = (l.take k).sum + l.getD k 0 := by
  rw [List.getD_eq_getElem?_getD, List.getElem?_eq_getElem hk]
  rw [List.sum_take_succ _ _ hk]
  rfl

theorem isPackedWord_filter_lt {w : List Nat} (hw : isPackedWord w) :
    isPackedWord (w.filter (fun x => x < maxL w)) := by
  have hc := isPackedWord_iff.mp hw
  rw [isPackedWord_iff]
  constructor
  · intro x hx
    exact hc.1 x (List.mem_of_mem_filter hx)
  · intro k hk1 hk2
    have hkmax : k < maxL w := by
      have hle : maxL (w.filter (fun x => x < maxL w)) ≤ maxL w - 1 := by
        apply maxL_le
        intro x hx
        have := List.of_mem_filter hx
        simp only [decide_eq_true_eq] at this
        omega
      omega
    rw [List.mem_filter]
    exact ⟨hc.2 k hk1 (by omega), by simp [hkmax]⟩

theorem maxL_filter_lt {w : List Nat} (hw : isPackedWord w) (hm : 2 ≤ maxL w) :
    maxL (w.filter (fun x => x < maxL w)) = maxL w - 1 := by
  have hc := isPackedWord_iff.mp hw
  apply le_antisymm
  · apply maxL_le
    intro x hx
    have := List.of_mem_filter hx
    simp only [decide_eq_true_eq] at this
    omega
  · have hmem : maxL w - 1 ∈ w.filter (fun x => x < maxL w) := by
      rw [List.mem_filter]
      refine ⟨hc.2 _ (by omega) (by omega), by simp; omega⟩
    exact le_maxL hmem

theorem all_ones_of_max_one {w : List Nat} (hw : isPackedWord w) (hm : maxL w = 1) :
    w = List.replicate w.length 1 := by
  have hc := isPackedWord_iff.mp hw
  rw [List.eq_replicate]
  refine ⟨rfl, ?_⟩
  intro b hb
  have h1 := hc.1 b hb
  have h2 := le_maxL hb
  omega

theorem map_add_sub_one_range' (c k : Nat) :
    (List.range' 1 k).map (fun x => x + c - 1) = List.range' c k := by
  rw [List.range'_eq_map_range, List.range'_eq_map_range, List.map_map]
  refine List.map_congr_left ?_
  intro i hi
  simp only [Function.comp_apply]
  omega

theorem le_sum_map_length {g : List (List Nat)} {b : List Nat} (hb : b ∈ g) :
    b.length ≤ (g.map List.length).sum := by
  induction g with
  | nil => cases hb
  | cons a t ih =>
    rw [List.map_cons, List.sum_cons]
    rcases List.mem_cons.mp hb with rfl | hbt
    · omega
    · have := ih hbt
      omega

theorem positionsOf_lt_length {w : List Nat} {m x : Nat} (hx : x ∈ positionsOf w m) :
    x < w.length := mem_positionsOf hx

theorem getLastD_positionsOf_lt {w : List Nat} {m : Nat} (hm : m ∈ w) :
    (positionsOf w m).getLastD 0 < w.length :=
  positionsOf_lt_length (getLastD_mem (positionsOf_ne_nil hm) 0)

/-! ## Decoder equations and the reinsertion endgame -/

theorem bind_ok {ε α β : Type} (a : α) (f : α → Except ε β) :
    (Except.ok a : Except ε α).bind f = f a := rfl

theorem weight_node (cs : List PTree) (c : Nat) (r : List Nat) :
    weight (.node cs (c, r)) = r.length + (cs.map weight).sum := by
  rw [weight]
  congr 1
  rw [List.attach_map_coe]

theorem weight_l_node (cs : List PTree) (c : Nat) (r : List Nat) :
    weight_l (.node cs (c, r)) = ((cs.take c).map weight).sum := rfl

theorem size_node {α : Type} (cs : List (LTree α)) (a : α) :
    LTree.size (.node cs a) = 1 + (cs.map LTree.size).sum := by
  rw [LTree.size]
  congr 1
  rw [List.attach_map_coe]

theorem le_sum_map {α : Type} (f : α → Nat) {l : List α} {a : α} (ha : a ∈ l) :
    f a ≤ (l.map f).sum := by
  induction l with
  | nil => cases ha
  | cons b t ih =>
    rw [List.map_cons, List.sum_cons]
    rcases List.mem_cons.mp ha with rfl | hat
    · omega
    · have := ih hat
      omega

theorem treeDecF_succ_nil (df : Nat) (c : Nat) (r : List Nat) :
    treeDecF (df + 1) (.node [] (c, r)) =
      upgrade_max [] (r.map (fun x => x + weight_l (.node [] ((c, r) : Nat × List Nat)) - 1)) :=
  rfl

theorem treeDecF_succ_single (df : Nat) (t1 : PTree) (c : Nat) (r : List Nat) :
    treeDecF (df + 1) (.node [t1] (c, r)) =
      (treeDecF df t1).bind
        (fun res => upgrade_max res
          (r.map (fun x => x + weight_l (.node [t1] ((c, r) : Nat × List Nat)) - 1))) :=
  rfl

theorem treeDecF_succ_multi (df : Nat) (t1 t2 : PTree) (rest : List PTree)
    (c : Nat) (r : List Nat) :
    treeDecF (df + 1) (.node (t1 :: t2 :: rest) (c, r)) =
      ((t1 :: t2 :: rest).mapM (treeDecF df)).bind
        (fun ws =>
          upgrade_max (ws.foldl l_shifted_concat [])
            (r.map (fun x =>
              x + weight_l (.node (t1 :: t2 :: rest) ((c, r) : Nat × List Nat)) - 1))) := rfl

theorem mapM_treeDec_ok {e d : Nat} :
    ∀ (g : List (List Nat)), (∀ b ∈ g, treeDecF d (pwToLTreeF e b) = .ok b) →
      (g.map (pwToLTreeF e)).mapM (treeDecF d) = .ok g := by
  intro g
  induction g with
  | nil =>
    intro _
    rfl
  | cons b t ih =>
    intro hdec
    rw [List.map_cons, List.mapM_cons]
    rw [hdec b (List.mem_cons_self _ _), ih (fun x hx => hdec x (List.mem_cons_of_mem _ hx))]
    rfl

theorem headD_add_take_drop_sum {l : List Nat} (hl : l ≠ []) (j : Nat) :
    l.headD 0 + ((l.drop 1).take j).sum = (l.take (j + 1)).sum := by
  cases l with
  | nil => exact absurd rfl hl
  | cons a t =>
    rw [List.take_succ_cons, List.sum_cons]
    rfl

/-- Reinserting the maximal letter of a packed word (with `upgrade_max`) at
its recorded positions recovers the word; all the validity checks pass. -/
theorem upgrade_max_positionsOf {w : List Nat} (hw : isPackedWord w) (hm2 : 2 ≤ maxL w) :
    upgrade_max (w.filter (fun x => x < maxL w)) (positionsOf w (maxL w)) = .ok w := by
  have hc := isPackedWord_iff.mp hw
  have hne : w ≠ [] := by
    intro h
    subst h
    simp [maxL] at hm2
  have hmmem : maxL w ∈ w := maxL_mem hne
  have hpos_ne : positionsOf w (maxL w) ≠ [] := positionsOf_ne_nil hmmem
  have hwm_ne : w.filter (fun x => x < maxL w) ≠ [] := by
    have h1w : (1 : Nat) ∈ w := hc.2 1 (le_refl 1) (by omega)
    have h1f : (1 : Nat) ∈ w.filter (fun x => x < maxL w) := by
      rw [List.mem_filter]
      refine ⟨h1w, by simp; omega⟩
    exact List.ne_nil_of_mem h1f
  have hsorted : List.insertionSort (· ≤ ·) (positionsOf w (maxL w)) =
      positionsOf w (maxL w) :=
    insertionSort_eq_self_iff.mpr ((positionsOf_sorted _ _).imp (fun hab => le_of_lt hab))
  have hlast : (positionsOf w (maxL w)).getLastD 0 < w.length := getLastD_positionsOf_lt hmmem
  have hsum : (w.filter (fun x => x < maxL w)).length + (positionsOf w (maxL w)).length =
      w.length := length_filter_add_length_positionsOf (fun x hx => le_maxL hx)
  have hval : maxL (w.filter (fun x => x < maxL w)) + 1 = maxL w := by
    rw [maxL_filter_lt hw hm2]
    omega
  unfold upgrade_max
  rw [if_neg hpos_ne, if_neg hwm_ne, if_neg (not_ne_iff.mpr hsorted), if_neg (by omega),
    hval, insertAll_positionsOf (fun x hx => le_maxL hx)]

/-! ## Encoder branch shapes and generic node decoding -/

theorem pwToLTreeF_max_one (e : Nat) {w : List Nat} (hm1 : maxL w = 1) :
    pwToLTreeF (e + 1) w = .node [] (0, List.range' 1 w.length) := by
  simp only [pwToLTreeF]
  rw [if_pos hm1]

theorem pwToLTreeF_branchA (e : Nat) {w : List Nat} (hm1 : ¬ maxL w = 1)
    (hwm_ne : w.filter (fun x => x < maxL w) ≠ [])
    (hA : (w.filter (fun x => x < maxL w)).length ≤ (positionsOf w (maxL w)).headD 0) :
    pwToLTreeF (e + 1) w =
      .node
        ((globalDescentsFactorization (w.filter (fun x => x < maxL w))).map (pwToLTreeF e))
        (((globalDescentsFactorization (w.filter (fun x => x < maxL w))).map
            (pwToLTreeF e)).length,
         List.range' 1 (positionsOf w (maxL w)).length) := by
  simp only [pwToLTreeF]
  rw [if_neg hm1, if_pos hA, if_neg hwm_ne]

theorem pwToLTreeF_branchB (e : Nat) {w : List Nat} (hm1 : ¬ maxL w = 1)
    (hB : ¬ (w.filter (fun x => x < maxL w)).length ≤ (positionsOf w (maxL w)).headD 0)
    {kk c2 : Nat}
    (hcut : cutLoop ((positionsOf w (maxL w)).headD 0)
        (w.filter (fun x => x < maxL w)).length
        (((globalDescentsFactorization (w.filter (fun x => x < maxL w))).map
            List.length).drop 1) 0
        (((globalDescentsFactorization (w.filter (fun x => x < maxL w))).map
            List.length).headD 0) = (kk, c2)) :
    pwToLTreeF (e + 1) w =
      .node
        ((globalDescentsFactorization (w.filter (fun x => x < maxL w))).map (pwToLTreeF e))
        (kk,
         (positionsOf w (maxL w)).map
           (fun x => x - (c2 -
             ((globalDescentsFactorization (w.filter (fun x => x < maxL w))).map
                 List.length).getD kk 0) + 1)) := by
  simp only [pwToLTreeF]
  rw [if_neg hm1, if_neg hB, hcut]

/-- Decoding a node whose children encode the blocks of a factorization:
the result is `upgrade_max` of the shifted-concatenation fold of the
blocks, at the label positions shifted by the node's left weight. -/
theorem decode_node_eq {e : Nat} {g : List (List Nat)} (hg : g ≠ [])
    (hdec : ∀ b ∈ g, ∀ df : Nat, (pwToLTreeF e b).size ≤ df →
      treeDecF df (pwToLTreeF e b) = .ok b)
    (cut : Nat) (X : List Nat) {df : Nat}
    (hdf : (LTree.node (g.map (pwToLTreeF e)) (cut, X)).size ≤ df) :
    treeDecF df (.node (g.map (pwToLTreeF e)) (cut, X)) =
      upgrade_max (g.foldl l_shifted_concat [])
        (X.map (fun x => x + weight_l (.node (g.map (pwToLTreeF e)) (cut, X)) - 1)) := by
  rw [size_node] at hdf
  obtain ⟨d, rfl⟩ : ∃ d, df = d + 1 := ⟨df - 1, by omega⟩
  have hchild : ∀ b ∈ g, treeDecF d (pwToLTreeF e b) = .ok b := by
    intro b hb
    refine hdec b hb d ?_
    have h1 : (pwToLTreeF e b).size ≤ ((g.map (pwToLTreeF e)).map LTree.size).sum :=
      le_sum_map _ (List.mem_map_of_mem _ hb)
    omega
  cases g with
  | nil => exact absurd rfl hg
  | cons b1 grest =>
    cases grest with
    | nil =>
      rw [List.map_cons, List.map_nil]
      rw [treeDecF_succ_single, hchild b1 (List.mem_cons_self _ _), bind_ok]
      have hfold : ([b1] : List (List Nat)).foldl l_shifted_concat [] = b1 := by
        simp [l_shifted_concat]
      rw [hfold]
    | cons b2 grest2 =>
      rw [List.map_cons, List.map_cons]
      rw [treeDecF_succ_multi]
      have hmapM : ((b1 :: b2 :: grest2).map (pwToLTreeF e)).mapM (treeDecF d) =
          .ok (b1 :: b2 :: grest2) := mapM_treeDec_ok _ hchild
      rw [List.map_cons, List.map_cons] at hmapM
      rw [hmapM, bind_ok]

/-! ## The single-tree roundtrip -/

/-- Main induction: for a nonempty packed word with no global descents, the
encoded tree has weight equal to the word's length and decodes back to the
word (for any sufficient fuels). -/
theorem tree_roundtrip_aux : ∀ (n : Nat), ∀ (w : List Nat), w.length ≤ n →
    isPackedWord w → w ≠ [] → globalDescents w false = [] →
    ∀ ef : Nat, w.length ≤ ef →
      weight (pwToLTreeF ef w) = w.length ∧
      ∀ df : Nat, (pwToLTreeF ef w).size ≤ df →
        treeDecF df (pwToLTreeF ef w) = Except.ok w := by
  intro n
  induction n with
  | zero =>
    intro w hlen _ hne _ _ _
    exact absurd (List.length_pos.mpr hne) (by omega)
  | succ n ih =>
    intro w hlen hw hne hgd ef hef
    have hlpos : 0 < w.length := List.length_pos.mpr hne
    obtain ⟨e, rfl⟩ : ∃ e, ef = e + 1 := ⟨ef - 1, by omega⟩
    by_cases hm1 : maxL w = 1
    · rw [pwToLTreeF_max_one e hm1]
      have hrep := all_ones_of_max_one hw hm1
      refine ⟨?_, ?_⟩
      · rw [weight_node]
        simp
      · intro df hdf
        rw [size_node] at hdf
        simp only [List.map_nil, List.sum_nil] at hdf
        obtain ⟨d, rfl⟩ : ∃ d, df = d + 1 := ⟨df - 1, by omega⟩
        rw [treeDecF_succ_nil]
        have hwl : weight_l (LTree.node ([] : List PTree)
            ((0, List.range' 1 w.length) : Nat × List Nat)) = 0 := rfl
        rw [hwl, map_add_sub_one_range']
        unfold upgrade_max
        have hr_ne : List.range' 0 w.length ≠ [] := by
          rw [← List.length_pos, List.length_range']
          omega
        rw [if_neg hr_ne, if_pos rfl]
        have h0 := insertAll_range'_length 1 w.length ([] : List Nat)
        simp only [List.length_nil] at h0
        rw [h0, List.nil_append, ← hrep]
    · have hm2 : 2 ≤ maxL w := by
        obtain ⟨x, hx⟩ := List.exists_mem_of_ne_nil _ hne
        have h1 := (isPackedWord_iff.mp hw).1 x hx
        have h2 := le_maxL hx
        omega
      have hmmem : maxL w ∈ w := maxL_mem hne
      have hwm_packed := isPackedWord_filter_lt hw
      have hwm_ne : w.filter (fun x => x < maxL w) ≠ [] := by
        have h1w : (1 : Nat) ∈ w := (isPackedWord_iff.mp hw).2 1 (le_refl 1) (by omega)
        refine List.ne_nil_of_mem (a := 1) ?_
        rw [List.mem_filter]
        refine ⟨h1w, by simp; omega⟩
      have hsum : (w.filter (fun x => x < maxL w)).length +
          (positionsOf w (maxL w)).length = w.length :=
        length_filter_add_length_positionsOf (fun x hx => le_maxL hx)
      have hkpos : 0 < (positionsOf w (maxL w)).length :=
        List.length_pos.mpr (positionsOf_ne_nil hmmem)
      have hwm_lt : (w.filter (fun x => x < maxL w)).length < w.length := by omega
      obtain ⟨hb_all, hb_len, hb_max, hb_fold⟩ := factorization_props hwm_packed hwm_ne
      have hg_ne : globalDescentsFactorization (w.filter (fun x => x < maxL w)) ≠ [] := by
        intro h
        rw [h] at hb_fold
        exact hwm_ne hb_fold.symm
      have hdec_blocks : ∀ b ∈ globalDescentsFactorization (w.filter (fun x => x < maxL w)),
          weight (pwToLTreeF e b) = b.length ∧
          ∀ df : Nat, (pwToLTreeF e b).size ≤ df →
            treeDecF df (pwToLTreeF e b) = Except.ok b := by
        intro b hb
        obtain ⟨hbp, hbne, hbgd⟩ := hb_all b hb
        have hble : b.length ≤ (w.filter (fun x => x < maxL w)).length := by
          have h1 := le_sum_map List.length hb
          rw [hb_len] at h1
          exact h1
        exact ih b (by omega) hbp hbne hbgd e (by omega)
      have hwsum : (((globalDescentsFactorization (w.filter (fun x => x < maxL w))).map
          (pwToLTreeF e)).map weight).sum = (w.filter (fun x => x < maxL w)).length := by
        rw [List.map_map, ← hb_len]
        congr 1
        refine List.map_congr_left ?_
        intro b hb
        simp only [Function.comp_apply]
        exact (hdec_blocks b hb).1
      by_cases hA : (w.filter (fun x => x < maxL w)).length ≤
          (positionsOf w (maxL w)).headD 0
      · rw [pwToLTreeF_branchA e hm1 hwm_ne hA]
        refine ⟨?_, ?_⟩
        · rw [weight_node, hwsum, List.length_range']
          omega
        · intro df hdf
          rw [decode_node_eq hg_ne (fun b hb => (hdec_blocks b hb).2) _ _ hdf, hb_fold]
          have hwl : weight_l (LTree.node
              ((globalDescentsFactorization (w.filter (fun x => x < maxL w))).map
                (pwToLTreeF e))
              ((((globalDescentsFactorization (w.filter (fun x => x < maxL w))).map
                  (pwToLTreeF e)).length,
                List.range' 1 (positionsOf w (maxL w)).length) : Nat × List Nat)) =
              (w.filter (fun x => x < maxL w)).length := by
            rw [weight_l_node, List.take_length]
            exact hwsum
          rw [hwl, map_add_sub_one_range']
          have hpos_range : positionsOf w (maxL w) =
              List.range' (w.filter (fun x => x < maxL w)).length
                (positionsOf w (maxL w)).length := by
            refine sorted_lt_eq_range' (positionsOf_sorted _ _) ?_
            intro x hx
            have h1 := sorted_lt_headD_le (positionsOf_sorted w (maxL w)) hx
            have h2 := mem_positionsOf hx
            omega
          rw [← hpos_range]
          exact upgrade_max_positionsOf hw hm2
      · obtain ⟨kk, hkk_le, hcut, hbound⟩ :=
          cutLoop_spec ((positionsOf w (maxL w)).headD 0)
            (w.filter (fun x => x < maxL w)).length
            (((globalDescentsFactorization (w.filter (fun x => x < maxL w))).map
                List.length).drop 1) 0
            (((globalDescentsFactorization (w.filter (fun x => x < maxL w))).map
                List.length).headD 0)
        have hlens_ne : (globalDescentsFactorization (w.filter (fun x => x < maxL w))).map
            List.length ≠ [] := by
          simpa using hg_ne
        have hkk_lt : kk < ((globalDescentsFactorization (w.filter (fun x => x < maxL w))).map
            List.length).length := by
          rw [List.length_drop] at hkk_le
          have h1 : 0 < ((globalDescentsFactorization (w.filter (fun x => x < maxL w))).map
              List.length).length := List.length_pos.mpr hlens_ne
          omega
        rw [Nat.zero_add, headD_add_take_drop_sum hlens_ne] at hcut
        have hs_eq : (((globalDescentsFactorization (w.filter (fun x => x < maxL w))).map
              List.length).take (kk + 1)).sum -
            ((globalDescentsFactorization (w.filter (fun x => x < maxL w))).map
              List.length).getD kk 0 =
            (((globalDescentsFactorization (w.filter (fun x => x < maxL w))).map
              List.length).take kk).sum := by
          rw [sum_take_getD hkk_lt]
          omega
        have hs_le : (((globalDescentsFactorization (w.filter (fun x => x < maxL w))).map
            List.length).take kk).sum ≤ (positionsOf w (maxL w)).headD 0 := by
          cases kk with
          | zero => simp
          | succ k2 =>
            rcases hbound with h0 | hb
            · exact absurd h0 (Nat.succ_ne_zero k2)
            · rw [Nat.add_sub_cancel, headD_add_take_drop_sum hlens_ne] at hb
              exact hb
        rw [pwToLTreeF_branchB e hm1 hA hcut, hs_eq]
        refine ⟨?_, ?_⟩
        · rw [weight_node, hwsum, List.length_map]
          omega
        · intro df hdf
          rw [decode_node_eq hg_ne (fun b hb => (hdec_blocks b hb).2) _ _ hdf, hb_fold]
          have hwl : weight_l (LTree.node
              ((globalDescentsFactorization (w.filter (fun x => x < maxL w))).map
                (pwToLTreeF e))
              ((kk, (positionsOf w (maxL w)).map
                (fun x => x - (((globalDescentsFactorization
                  (w.filter (fun x => x < maxL w))).map List.length).take kk).sum + 1)) :
                Nat × List Nat)) =
              (((globalDescentsFactorization (w.filter (fun x => x < maxL w))).map
                List.length).take kk).sum := by
            rw [weight_l_node, ← List.map_take, List.map_map, ← List.map_take]
            congr 1
            refine List.map_congr_left ?_
            intro b hb
            simp only [Function.comp_apply]
            exact (hdec_blocks b (List.take_subset _ _ hb)).1
          rw [hwl, List.map_map]
          have hcomp : (positionsOf w (maxL w)).map
              ((fun x => x + (((globalDescentsFactorization
                  (w.filter (fun x => x < maxL w))).map List.length).take kk).sum - 1) ∘
               (fun x => x - (((globalDescentsFactorization
                  (w.filter (fun x => x < maxL w))).map List.length).take kk).sum + 1)) =
              positionsOf w (maxL w) := by
            refine (List.map_congr_left ?_).trans (List.map_id _)
            intro x hx
            have h1 := sorted_lt_headD_le (positionsOf_sorted w (maxL w)) hx
            simp only [Function.comp_apply, id_eq]
            omega
          rw [hcomp]
          exact upgrade_max_positionsOf hw hm2

/-! ## C1: the plain labelled-forest codec round-trips -/

theorem forestDecF_single (fuel : Nat) (t1 : PTree) :
    forestDecF fuel [t1] = treeDecF fuel t1 := rfl

theorem forestDecF_multi (fuel : Nat) (t1 t2 : PTree) (rest : List PTree) :
    forestDecF fuel (t1 :: t2 :: rest) =
      ((t1 :: t2 :: rest).mapM (treeDecF fuel)).bind
        (fun ws => Except.ok (ws.foldl l_shifted_concat [])) := rfl

theorem mapM_treeDec_enc {d : Nat} (enc : List Nat → PTree) :
    ∀ (g : List (List Nat)), (∀ b ∈ g, treeDecF d (enc b) = .ok b) →
      (g.map enc).mapM (treeDecF d) = .ok g := by
  intro g
  induction g with
  | nil =>
    intro _
    rfl
  | cons b t ih =>
    intro hdec
    rw [List.map_cons, List.mapM_cons]
    rw [hdec b (List.mem_cons_self _ _), ih (fun x hx => hdec x (List.mem_cons_of_mem _ hx))]
    rfl

/-- C1: for every valid packed word `w` (including the empty word), decoding
the plain labelled-forest encoding returns `w`:
`labelled_forest_to_packed_word(packed_word_to_labelled_forest(w)) == w`. -/
theorem C1_plain_codec_roundtrip (w : List Nat) (hw : isPackedWord w) :
    labelled_forest_to_packed_word (packed_word_to_labelled_forest w) = Except.ok w := by
  by_cases hne : w = []
  · subst hne
    rfl
  · obtain ⟨hb_all, hb_len, hb_max, hb_fold⟩ := factorization_props hw hne
    have hg_ne : globalDescentsFactorization w ≠ [] := by
      intro h
      rw [h] at hb_fold
      exact hne hb_fold.symm
    have henc : packed_word_to_labelled_forest w =
        (globalDescentsFactorization w).map (fun b => pwToLTreeF b.length b) := by
      unfold packed_word_to_labelled_forest packed_word_to_labelled_tree
      rw [if_neg hne]
    rw [henc]
    unfold labelled_forest_to_packed_word
    have hdecb : ∀ b ∈ globalDescentsFactorization w, ∀ df : Nat,
        (pwToLTreeF b.length b).size ≤ df →
        treeDecF df (pwToLTreeF b.length b) = Except.ok b := by
      intro b hb
      obtain ⟨hbp, hbne, hbgd⟩ := hb_all b hb
      exact (tree_roundtrip_aux b.length b (le_refl _) hbp hbne hbgd b.length (le_refl _)).2
    have hchild : ∀ b ∈ globalDescentsFactorization w,
        treeDecF (((globalDescentsFactorization w).map
          (fun b => pwToLTreeF b.length b)).map LTree.size).sum
          (pwToLTreeF b.length b) = Except.ok b := by
      intro b hb
      exact hdecb b hb _ (le_sum_map LTree.size (List.mem_map_of_mem _ hb))
    cases hgw : globalDescentsFactorization w with
    | nil => exact absurd hgw hg_ne
    | cons b1 grest =>
      rw [hgw] at hb_fold hchild
      cases grest with
      | nil =>
        have hb1 : b1 = w := by
          simpa [l_shifted_concat] using hb_fold
        simp only [List.map_cons, List.map_nil] at hchild ⊢
        rw [forestDecF_single]
        rw [hb1] at hchild ⊢
        exact hchild w (List.mem_cons_self _ _)
      | cons b2 grest2 =>
        simp only [List.map_cons] at hchild ⊢
        rw [forestDecF_multi]
        have hmapM := mapM_treeDec_enc (fun b => pwToLTreeF b.length b)
          (b1 :: b2 :: grest2) hchild
        simp only [List.map_cons] at hmapM
        rw [hmapM, bind_ok, hb_fold]

/-- C1 witness: the concrete word `[1,5,10,2,3,11,4,7,6,7,2,9,8]` is a valid
packed word and round-trips exactly through the plain codec. -/
theorem C1_plain_codec_roundtrip_witness :
    isPackedWord [1, 5, 10, 2, 3, 11, 4, 7, 6, 7, 2, 9, 8] ∧
    labelled_forest_to_packed_word (packed_word_to_labelled_forest
      [1, 5, 10, 2, 3, 11, 4, 7, 6, 7, 2, 9, 8]) =
      Except.ok [1, 5, 10, 2, 3, 11, 4, 7, 6, 7, 2, 9, 8] :=
  ⟨by decide, C1_plain_codec_roundtrip _ (by decide)⟩

/-! ## Splitting at the last letter (left codec) -/

theorem singleton_packed {w : List Nat} (hw : isPackedWord w) (h1 : w.length = 1) :
    w = [1] := by
  cases w with
  | nil => simp at h1
  | cons a t =>
    cases t with
    | nil =>
      have hc := isPackedWord_iff.mp hw
      have ha1 := hc.1 a (by simp)
      have hmax : maxL [a] = a := by simp [maxL]
      have h1a : (1 : Nat) ∈ [a] := hc.2 1 (le_refl 1) (by rw [hmax]; omega)
      simp only [List.mem_singleton] at h1a
      rw [← h1a]
    | cons b t2 => simp at h1

theorem dropLast_append_getLastD {w : List Nat} (hne : w ≠ []) :
    w.dropLast ++ [w.getLastD 0] = w := by
  have h1 : w.getLastD 0 = w.getLast hne := by
    rw [List.getLastD_eq_getLast?, List.getLast?_eq_getLast _ hne]
    rfl
  rw [h1]
  exact List.dropLast_append_getLast hne

theorem mem_of_dropLast_split {w : List Nat} (hne : w ≠ []) (z : Nat) :
    z ∈ w ↔ z ∈ w.dropLast ∨ z = w.getLastD 0 := by
  conv_lhs => rw [← dropLast_append_getLastD hne]
  rw [List.mem_append, List.mem_singleton]

theorem dropLast_packed_of_seen {w : List Nat} (hw : isPackedWord w)
    (hb : w.getLastD 0 ∈ w.dropLast) :
    isPackedWord w.dropLast ∧ maxL w.dropLast = maxL w := by
  have hne : w ≠ [] := by
    rintro rfl
    simp at hb
  have hc := isPackedWord_iff.mp hw
  have hsplit := mem_of_dropLast_split hne
  have hmax_eq : maxL w.dropLast = maxL w := by
    apply le_antisymm
    · exact maxL_le (fun x hx => le_maxL ((hsplit x).mpr (Or.inl hx)))
    · apply maxL_le
      intro x hx
      rcases (hsplit x).mp hx with h | h
      · exact le_maxL h
      · rw [h]
        exact le_maxL hb
  refine ⟨?_, hmax_eq⟩
  rw [isPackedWord_iff]
  refine ⟨fun x hx => hc.1 x ((hsplit x).mpr (Or.inl hx)), ?_⟩
  intro k hk1 hk2
  rw [hmax_eq] at hk2
  have hkw : k ∈ w := hc.2 k hk1 hk2
  rcases (hsplit k).mp hkw with h | h
  · exact h
  · rw [h]
    exact hb

theorem dropLast_packed_of_new_max {w : List Nat} (hw : isPackedWord w) (h2 : 2 ≤ w.length)
    (hb : w.getLastD 0 ∉ w.dropLast) (hm : w.getLastD 0 = maxL w) :
    isPackedWord w.dropLast ∧ maxL w.dropLast = maxL w - 1 := by
  have hne : w ≠ [] := by
    rw [← List.length_pos]
    omega
  have hc := isPackedWord_iff.mp hw
  have hsplit := mem_of_dropLast_split hne
  have hwl_ne : w.dropLast ≠ [] := by
    rw [← List.length_pos, List.length_dropLast]
    omega
  have hm2 : 2 ≤ maxL w := by
    by_contra hlt
    push_neg at hlt
    have hmax1 : maxL w = 1 := by
      obtain ⟨x, hx⟩ := List.exists_mem_of_ne_nil _ hne
      have h1 := hc.1 x hx
      have h2x := le_maxL hx
      omega
    obtain ⟨y, hy⟩ := List.exists_mem_of_ne_nil _ hwl_ne
    have hy1 : y = 1 := by
      have hyw : y ∈ w := (hsplit y).mpr (Or.inl hy)
      have h1 := hc.1 y hyw
      have h2y := le_maxL hyw
      omega
    rw [hm, hmax1] at hb
    exact hb (hy1 ▸ hy)
  have hwl_mem : ∀ x : Nat, x ∈ w.dropLast ↔ 1 ≤ x ∧ x ≤ maxL w - 1 := by
    intro x
    constructor
    · intro hx
      have hxw : x ∈ w := (hsplit x).mpr (Or.inl hx)
      refine ⟨hc.1 x hxw, ?_⟩
      have hxle := le_maxL hxw
      have hxne : x ≠ maxL w := by
        intro he
        refine hb ?_
        rw [hm, ← he]
        exact hx
      omega
    · rintro ⟨h1, h2x⟩
      have hxw : x ∈ w := hc.2 x h1 (by omega)
      rcases (hsplit x).mp hxw with h | h
      · exact h
      · exfalso
        rw [h, hm] at h2x
        omega
  have hmax_eq : maxL w.dropLast = maxL w - 1 := by
    apply le_antisymm
    · exact maxL_le (fun x hx => ((hwl_mem x).mp hx).2)
    · exact le_maxL ((hwl_mem _).mpr ⟨by omega, le_refl _⟩)
  refine ⟨?_, hmax_eq⟩
  rw [isPackedWord_iff]
  refine ⟨fun x hx => ((hwl_mem x).mp hx).1, ?_⟩
  intro k hk1 hk2
  rw [hmax_eq] at hk2
  exact (hwl_mem k).mpr ⟨hk1, hk2⟩

theorem indexOf_append_right {l1 l2 : List Nat} {x : Nat} (hx : x ∉ l1) :
    (l1 ++ l2).indexOf x = l1.length + l2.indexOf x := by
  induction l1 with
  | nil => simp
  | cons a t ih =>
    have hax : x ≠ a ∧ x ∉ t := by simpa [List.mem_cons, not_or] using hx
    have hbeq : (a == x) = false := beq_eq_false_iff_ne.mpr (Ne.symm hax.1)
    rw [List.cons_append, List.indexOf_cons, hbeq, cond_false, ih hax.2, List.length_cons]
    omega

theorem dropLast_new_lt_facts {w : List Nat} (hw : isPackedWord w) (h2 : 2 ≤ w.length)
    (hb : w.getLastD 0 ∉ w.dropLast) (hm : w.getLastD 0 ≠ maxL w) :
    (1 ≤ w.getLastD 0 ∧ w.getLastD 0 < maxL w) ∧
    (∀ x : Nat, x ∈ w.dropLast ↔ 1 ≤ x ∧ x ≤ maxL w ∧ x ≠ w.getLastD 0) ∧
    maxL w.dropLast = maxL w ∧
    pack w.dropLast = w.dropLast.map
      (fun x => if x < w.getLastD 0 then x else x - 1) ∧
    maxL (pack w.dropLast) = maxL w - 1 := by
  have hne : w ≠ [] := by
    rw [← List.length_pos]
    omega
  have hc := isPackedWord_iff.mp hw
  have hsplit := mem_of_dropLast_split hne
  have hlw : w.getLastD 0 ∈ w := getLastD_mem hne 0
  have hl1 : 1 ≤ w.getLastD 0 := hc.1 _ hlw
  have hlm : w.getLastD 0 < maxL w := lt_of_le_of_ne (le_maxL hlw) hm
  have hwl_mem : ∀ x : Nat, x ∈ w.dropLast ↔ 1 ≤ x ∧ x ≤ maxL w ∧ x ≠ w.getLastD 0 := by
    intro x
    constructor
    · intro hx
      have hxw : x ∈ w := (hsplit x).mpr (Or.inl hx)
      refine ⟨hc.1 x hxw, le_maxL hxw, ?_⟩
      intro he
      exact hb (he ▸ hx)
    · rintro ⟨h1, h2x, h3⟩
      have hxw : x ∈ w := hc.2 x h1 h2x
      rcases (hsplit x).mp hxw with h | h
      · exact h
      · exact absurd h h3
  have hmax_eq : maxL w.dropLast = maxL w := by
    apply le_antisymm
    · exact maxL_le (fun x hx => ((hwl_mem x).mp hx).2.1)
    · exact le_maxL ((hwl_mem _).mpr ⟨by omega, le_refl _, by omega⟩)
  have hsd : sortedDistinct w.dropLast =
      List.range' 1 (w.getLastD 0 - 1) ++
      List.range' (w.getLastD 0 + 1) (maxL w - w.getLastD 0) := by
    refine eq_of_sorted_lt_of_mem_iff (sortedDistinct_sorted_lt _) ?_ ?_
    · rw [List.Sorted, List.pairwise_append]
      refine ⟨List.pairwise_lt_range' _ _ 1 (Nat.le_refl 1),
        List.pairwise_lt_range' _ _ 1 (Nat.le_refl 1), ?_⟩
      intro a ha b hbm
      rw [List.mem_range'_1] at ha hbm
      omega
    · intro x
      rw [mem_sortedDistinct, List.mem_append, List.mem_range'_1, List.mem_range'_1,
        hwl_mem x]
      omega
  have hpack : pack w.dropLast = w.dropLast.map
      (fun x => if x < w.getLastD 0 then x else x - 1) := by
    unfold pack
    rw [hsd]
    refine List.map_congr_left ?_
    intro x hx
    obtain ⟨h1, h2x, h3⟩ := (hwl_mem x).mp hx
    by_cases hxl : x < w.getLastD 0
    · rw [if_pos hxl]
      have hxr : x ∈ List.range' 1 (w.getLastD 0 - 1) := by
        rw [List.mem_range'_1]
        omega
      rw [List.indexOf_append_of_mem hxr, indexOf_range' h1 (by omega)]
      omega
    · rw [if_neg hxl]
      have hxr : x ∉ List.range' 1 (w.getLastD 0 - 1) := by
        rw [List.mem_range'_1]
        omega
      rw [indexOf_append_right hxr, List.length_range',
        indexOf_range' (by omega) (by omega)]
      omega
  refine ⟨⟨hl1, hlm⟩, hwl_mem, hmax_eq, hpack, ?_⟩
  rw [hpack]
  apply le_antisymm
  · apply maxL_le
    intro y hy
    rcases List.mem_map.mp hy with ⟨x, hx, rfl⟩
    obtain ⟨h1, h2x, h3⟩ := (hwl_mem x).mp hx
    by_cases hxl : x < w.getLastD 0
    · rw [if_pos hxl]
      omega
    · rw [if_neg hxl]
      omega
  · have hmmem : maxL w ∈ w.dropLast := (hwl_mem _).mpr ⟨by omega, le_refl _, by omega⟩
    refine le_maxL (List.mem_map.mpr ⟨maxL w, hmmem, ?_⟩)
    rw [if_neg (by omega)]

theorem take_dropLast_eq {w : List Nat} (hne : w ≠ []) {d : Nat}
    (hd : d ≤ w.dropLast.length) :
    w.take d = w.dropLast.take d := by
  conv_lhs => rw [← dropLast_append_getLastD hne]
  rw [List.take_append_eq_append_take]
  have h0 : d - w.dropLast.length = 0 := by omega
  rw [h0, List.take_zero, List.append_nil]

theorem drop_dropLast_eq {w : List Nat} (hne : w ≠ []) {d : Nat}
    (hd : d ≤ w.dropLast.length) :
    w.drop d = w.dropLast.drop d ++ [w.getLastD 0] := by
  conv_lhs => rw [← dropLast_append_getLastD hne]
  rw [List.drop_append_eq_append_drop]
  have h0 : d - w.dropLast.length = 0 := by omega
  rw [h0, List.drop_zero]

/-- A map that is strictly order-preserving on the letters of a word does
not change its global descents. -/
theorem globalDescents_map_mono {u : List Nat} {φ : Nat → Nat}
    (hmono : ∀ x ∈ u, ∀ y ∈ u, (φ x < φ y ↔ x < y)) :
    globalDescents (u.map φ) false = globalDescents u false := by
  refine eq_of_sorted_lt_of_mem_iff (globalDescents_sorted _) (globalDescents_sorted _) ?_
  intro d
  rw [mem_globalDescents, mem_globalDescents, List.length_map]
  constructor
  · rintro ⟨h1, h2, h3⟩
    refine ⟨h1, h2, ?_⟩
    intro x hx y hy
    have hx2 : φ x ∈ (u.map φ).take d := by
      rw [← List.map_take]
      exact List.mem_map_of_mem _ hx
    have hy2 : φ y ∈ (u.map φ).drop d := by
      rw [← List.map_drop]
      exact List.mem_map_of_mem _ hy
    exact (hmono y (List.drop_subset _ _ hy) x (List.take_subset _ _ hx)).mp
      (h3 _ hx2 _ hy2)
  · rintro ⟨h1, h2, h3⟩
    refine ⟨h1, h2, ?_⟩
    intro x hx y hy
    rw [← List.map_take] at hx
    rw [← List.map_drop] at hy
    obtain ⟨x0, hx0, rfl⟩ := List.mem_map.mp hx
    obtain ⟨y0, hy0, rfl⟩ := List.mem_map.mp hy
    exact (hmono y0 (List.drop_subset _ _ hy0) x0 (List.take_subset _ _ hx0)).mpr
      (h3 x0 hx0 y0 hy0)

/-- When the whole word has no global descents, every global descent of the
front (all letters but the last) has a letter at or before it that does not
exceed the last letter. -/
theorem no_descent_last_bound {w : List Nat} (hgd : globalDescents w false = [])
    {d1 : Nat} (hd1 : d1 ∈ globalDescents w.dropLast false) :
    ∃ x ∈ w.dropLast.take d1, x ≤ w.getLastD 0 := by
  have hne : w ≠ [] := by
    rintro rfl
    simp [globalDescents] at hd1
  obtain ⟨hp1, hp2, hp3⟩ := mem_globalDescents.mp hd1
  by_contra hcon
  push_neg at hcon
  have hlen : w.dropLast.length = w.length - 1 := List.length_dropLast w
  have hdw : d1 ∈ globalDescents w false := by
    rw [mem_globalDescents]
    refine ⟨hp1, by omega, ?_⟩
    intro x hx y hy
    rw [take_dropLast_eq hne (by omega)] at hx
    rw [drop_dropLast_eq hne (by omega)] at hy
    rcases List.mem_append.mp hy with hy1 | hy2
    · exact hp3 x hx y hy1
    · rw [List.mem_singleton] at hy2
      rw [hy2]
      exact hcon x hx
  rw [hgd] at hdw
  cases hdw

/-! ## Left decoder equations -/

theorem nb_false_node (cs : List LTreeL) (c : Nat) (v : Nat) (bb : Bool) :
    nb_false (.node cs (c, (v, bb))) =
      (1 - if bb then 1 else 0) + (cs.map nb_false).sum := by
  have h1 : (cs.attach.map (fun x => nb_false x.1)).sum = (cs.map nb_false).sum := by
    rw [List.attach_map_coe]
  rw [nb_false, h1]

theorem nb_false_l_node (cs : List LTreeL) (c : Nat) (rlbl : Nat × Bool) :
    nb_false_l (.node cs (c, rlbl)) = ((cs.take c).map nb_false).sum := rfl

theorem treeDecLF_succ_nil (df c v : Nat) (bb : Bool) :
    treeDecLF (df + 1) (.node [] (c, (v, bb))) =
      Except.ok (upgrade_last []
        (v + nb_false_l (.node ([] : List LTreeL) ((c, (v, bb)) : Nat × (Nat × Bool))),
         bb)) := rfl

theorem treeDecLF_succ_single (df : Nat) (t1 : LTreeL) (c v : Nat) (bb : Bool) :
    treeDecLF (df + 1) (.node [t1] (c, (v, bb))) =
      (treeDecLF df t1).bind (fun res => Except.ok (upgrade_last res
        (v + nb_false_l (.node [t1] ((c, (v, bb)) : Nat × (Nat × Bool))), bb))) := rfl

theorem treeDecLF_succ_multi (df : Nat) (t1 t2 : LTreeL) (rest : List LTreeL)
    (c v : Nat) (bb : Bool) :
    treeDecLF (df + 1) (.node (t1 :: t2 :: rest) (c, (v, bb))) =
      ((t1 :: t2 :: rest).reverse.mapM (treeDecLF df)).bind
        (fun ws => Except.ok (upgrade_last (ws.foldl l_shifted_concat [])
          (v + nb_false_l (.node (t1 :: t2 :: rest) ((c, (v, bb)) : Nat × (Nat × Bool))),
           bb))) := rfl

theorem forestDecLF_single (fuel : Nat) (t1 : LTreeL) :
    forestDecLF fuel [t1] = treeDecLF fuel t1 := rfl

theorem forestDecLF_multi (fuel : Nat) (t1 t2 : LTreeL) (rest : List LTreeL) :
    forestDecLF fuel (t1 :: t2 :: rest) =
      ((t1 :: t2 :: rest).reverse.mapM (treeDecLF fuel)).bind
        (fun ws => Except.ok (ws.foldl l_shifted_concat [])) := rfl

theorem mapM_treeDecL_enc {d : Nat} (encf : List Nat → LTreeL) :
    ∀ (g : List (List Nat)), (∀ b ∈ g, treeDecLF d (encf b) = .ok b) →
      (g.map encf).mapM (treeDecLF d) = .ok g := by
  intro g
  induction g with
  | nil =>
    intro _
    rfl
  | cons b t ih =>
    intro hdec
    rw [List.map_cons, List.mapM_cons]
    rw [hdec b (List.mem_cons_self _ _), ih (fun x hx => hdec x (List.mem_cons_of_mem _ hx))]
    rfl

/-- Decoding a left node whose (reversed) children encode the blocks of a
factorization: the result is `upgrade_last` of the shifted-concatenation
fold, at the label value corrected by the node's left false count. -/
theorem decodeL_node_eq {g : List (List Nat)} {encf : List Nat → LTreeL} (hg : g ≠ [])
    (hdec : ∀ b ∈ g, ∀ df : Nat, (encf b).size ≤ df → treeDecLF df (encf b) = .ok b)
    (c v : Nat) (bb : Bool) {df : Nat}
    (hdf : (LTree.node (g.reverse.map encf) (c, (v, bb))).size ≤ df) :
    treeDecLF df (.node (g.reverse.map encf) (c, (v, bb))) =
      Except.ok (upgrade_last (g.foldl l_shifted_concat [])
        (v + nb_false_l (.node (g.reverse.map encf) ((c, (v, bb)) : Nat × (Nat × Bool))),
         bb)) := by
  rw [size_node] at hdf
  obtain ⟨d, rfl⟩ : ∃ d, df = d + 1 := ⟨df - 1, by omega⟩
  have hchild : ∀ b ∈ g, treeDecLF d (encf b) = .ok b := by
    intro b hb
    refine hdec b hb d ?_
    have h1 : (encf b).size ≤ ((g.reverse.map encf).map LTree.size).sum :=
      le_sum_map _ (List.mem_map_of_mem _ (List.mem_reverse.mpr hb))
    omega
  cases g with
  | nil => exact absurd rfl hg
  | cons b1 grest =>
    cases grest with
    | nil =>
      simp only [List.reverse_cons, List.reverse_nil, List.nil_append, List.map_cons,
        List.map_nil]
      rw [treeDecLF_succ_single, hchild b1 (List.mem_cons_self _ _), bind_ok]
      have hfold : ([b1] : List (List Nat)).foldl l_shifted_concat [] = b1 := by
        simp [l_shifted_concat]
      rw [hfold]
    | cons b2 grest2 =>
      cases hcs : (b1 :: b2 :: grest2).reverse.map encf with
      | nil =>
        exfalso
        have hlen := congrArg List.length hcs
        simp only [List.length_map, List.length_reverse, List.length_cons,
          List.length_nil] at hlen
        omega
      | cons c1 cs2 =>
        cases cs2 with
        | nil =>
          exfalso
          have hlen := congrArg List.length hcs
          simp only [List.length_map, List.length_reverse, List.length_cons,
            List.length_nil] at hlen
          omega
        | cons c2 cs3 =>
          have hrev : ((b1 :: b2 :: grest2).reverse.map encf).reverse =
              (b1 :: b2 :: grest2).map encf := by
            simp
          rw [hcs] at hrev
          have hmapM := mapM_treeDecL_enc encf (b1 :: b2 :: grest2) hchild
          rw [treeDecLF_succ_multi, hrev, hmapM, bind_ok]

/-! ## Left encoder branch shapes and label sums -/

theorem pwToLTreeLF_seen (e : Nat) {w : List Nat} (h2 : ¬ w.length ≤ 1)
    (hb : w.getLastD 0 ∈ w.dropLast) :
    pwToLTreeLF (e + 1) w =
      .node ((globalDescentsFactorization (pack w.dropLast)).reverse.map (pwToLTreeLF e))
        ((globalDescentsFactorization (pack w.dropLast)).length - 1,
         (((globalDescentsFactorization (pack w.dropLast)).headD []).getD
            (w.indexOf (w.getLastD 0)) 0,
          true)) := by
  simp only [pwToLTreeLF]
  rw [if_neg h2, decide_eq_true hb, if_pos (Or.inl rfl), if_pos rfl]

theorem pwToLTreeLF_new_max (e : Nat) {w : List Nat} (h2 : ¬ w.length ≤ 1)
    (hb : w.getLastD 0 ∉ w.dropLast) (hm : w.getLastD 0 = maxL w) :
    pwToLTreeLF (e + 1) w =
      .node ((globalDescentsFactorization (pack w.dropLast)).reverse.map (pwToLTreeLF e))
        ((globalDescentsFactorization (pack w.dropLast)).length, (1, false)) := by
  have hor : ¬((false = true) ∨ w.getLastD 0 ≠ maxL w) := by
    rintro (hc | hc)
    · exact Bool.false_ne_true hc
    · exact hc hm
  simp only [pwToLTreeLF]
  rw [if_neg h2, decide_eq_false hb, if_neg hor, if_neg Bool.false_ne_true, if_pos hm,
    Nat.sub_zero]

theorem pwToLTreeLF_new_lt (e : Nat) {w : List Nat} (h2 : ¬ w.length ≤ 1)
    (hb : w.getLastD 0 ∉ w.dropLast) (hm : w.getLastD 0 ≠ maxL w) :
    pwToLTreeLF (e + 1) w =
      .node ((globalDescentsFactorization (pack w.dropLast)).reverse.map (pwToLTreeLF e))
        ((globalDescentsFactorization (pack w.dropLast)).length - 1,
         (((globalDescentsFactorization (pack w.dropLast)).headD []).getD
            ((w.take ((globalDescentsFactorization (pack w.dropLast)).headD []).length).indexOf
              (w.getLastD 0 - 1)) 0 + 1,
          false)) := by
  simp only [pwToLTreeLF]
  rw [if_neg h2, decide_eq_false hb, if_pos (Or.inr hm), if_neg (by simp), if_neg hm]

theorem sum_nb_false_reverse_map {e : Nat} {g : List (List Nat)}
    (hnb : ∀ b ∈ g, nb_false (pwToLTreeLF e b) = maxL b) :
    ((g.reverse.map (pwToLTreeLF e)).map nb_false).sum = (g.map maxL).sum := by
  rw [List.map_map]
  have h1 : g.reverse.map (nb_false ∘ pwToLTreeLF e) = g.reverse.map maxL := by
    refine List.map_congr_left ?_
    intro b hb
    simp only [Function.comp_apply]
    exact hnb b (List.mem_reverse.mp hb)
  rw [h1]
  have h2 : g.reverse.map maxL = (g.map maxL).reverse := by
    simp
  rw [h2, List.sum_reverse]

theorem nb_false_l_pred {e : Nat} {g : List (List Nat)} (rlbl : Nat × Bool)
    (hnb : ∀ b ∈ g, nb_false (pwToLTreeLF e b) = maxL b) :
    nb_false_l (.node (g.reverse.map (pwToLTreeLF e))
        ((g.length - 1, rlbl) : Nat × (Nat × Bool))) =
      ((g.drop 1).map maxL).sum := by
  rw [nb_false_l_node]
  cases g with
  | nil => rfl
  | cons b1 rest =>
    have hsplit : (b1 :: rest).reverse.map (pwToLTreeLF e) =
        rest.reverse.map (pwToLTreeLF e) ++ [pwToLTreeLF e b1] := by
      rw [List.reverse_cons, List.map_append]
      rfl
    rw [hsplit]
    have hlen2 : (rest.reverse.map (pwToLTreeLF e)).length = rest.length := by simp
    have htake : (rest.reverse.map (pwToLTreeLF e) ++ [pwToLTreeLF e b1]).take
        ((b1 :: rest).length - 1) = rest.reverse.map (pwToLTreeLF e) := by
      rw [List.length_cons, Nat.add_sub_cancel, ← hlen2, List.take_left]
    rw [htake]
    have hs := sum_nb_false_reverse_map (g := rest)
      (fun b hb => hnb b (List.mem_cons_of_mem _ hb))
    rw [hs]
    rfl

theorem nb_false_l_all {e : Nat} {g : List (List Nat)} (rlbl : Nat × Bool)
    (hnb : ∀ b ∈ g, nb_false (pwToLTreeLF e b) = maxL b) :
    nb_false_l (.node (g.reverse.map (pwToLTreeLF e))
        ((g.length, rlbl) : Nat × (Nat × Bool))) =
      (g.map maxL).sum := by
  rw [nb_false_l_node]
  have hlen2 : (g.reverse.map (pwToLTreeLF e)).length = g.length := by simp
  rw [← hlen2, List.take_length]
  exact sum_nb_false_reverse_map hnb

/-! ## The `upgrade_last` endgames -/

theorem upgrade_last_seen {w : List Nat} (hne : w ≠ []) :
    upgrade_last w.dropLast (w.getLastD 0, true) = w := by
  unfold upgrade_last
  conv_rhs => rw [← dropLast_append_getLastD hne]
  congr 1
  refine (List.map_congr_left ?_).trans (List.map_id _)
  intro x _
  simp only [id_eq]
  by_cases hxl : x < w.getLastD 0
  · rw [if_pos hxl]
  · rw [if_neg hxl]
    simp

theorem upgrade_last_new_max {w : List Nat} (hw : isPackedWord w) (h2 : 2 ≤ w.length)
    (hb : w.getLastD 0 ∉ w.dropLast) (hm : w.getLastD 0 = maxL w) :
    upgrade_last w.dropLast (w.getLastD 0, false) = w := by
  have hne : w ≠ [] := by
    rw [← List.length_pos]
    omega
  obtain ⟨hwlp, hwlmax⟩ := dropLast_packed_of_new_max hw h2 hb hm
  have hm2 : 2 ≤ maxL w := by
    by_contra hc
    push_neg at hc
    have hwl_ne : w.dropLast ≠ [] := by
      rw [← List.length_pos, List.length_dropLast]
      omega
    obtain ⟨y, hy⟩ := List.exists_mem_of_ne_nil _ hwl_ne
    have hy1 : 1 ≤ y := (isPackedWord_iff.mp hwlp).1 y hy
    have hy2 : y ≤ maxL w.dropLast := le_maxL hy
    rw [hwlmax] at hy2
    omega
  unfold upgrade_last
  conv_rhs => rw [← dropLast_append_getLastD hne]
  congr 1
  refine (List.map_congr_left ?_).trans (List.map_id _)
  intro x hx
  simp only [id_eq]
  have hxle : x ≤ maxL w - 1 := by
    have := le_maxL hx
    rw [hwlmax] at this
    exact this
  have hxlt : x < w.getLastD 0 := by
    rw [hm]
    omega
  rw [if_pos hxlt]

theorem upgrade_last_new_lt {w : List Nat} (hw : isPackedWord w) (h2 : 2 ≤ w.length)
    (hb : w.getLastD 0 ∉ w.dropLast) (hm : w.getLastD 0 ≠ maxL w) :
    upgrade_last (pack w.dropLast) (w.getLastD 0, false) = w := by
  have hne : w ≠ [] := by
    rw [← List.length_pos]
    omega
  obtain ⟨⟨hl1, hlm⟩, hwl_mem, hwlmax, hpack, hplmax⟩ := dropLast_new_lt_facts hw h2 hb hm
  rw [hpack]
  unfold upgrade_last
  have hcond : (if ((w.getLastD 0, false) : Nat × Bool).2 = true then (0 : Nat) else 1) = 1 :=
    rfl
  rw [hcond]
  conv_rhs => rw [← dropLast_append_getLastD hne]
  congr 1
  rw [List.map_map]
  refine (List.map_congr_left ?_).trans (List.map_id _)
  intro x hx
  obtain ⟨hx1, hx2, hx3⟩ := (hwl_mem x).mp hx
  simp only [Function.comp_apply, id_eq]
  split_ifs <;> omega

/-! ## `getD` helpers and the left label computations -/

theorem getD_map_lt {f : Nat → Nat} {l : List Nat} {i : Nat} (h : i < l.length)
    (d d2 : Nat) :
    (l.map f).getD i d = f (l.getD i d2) := by
  rw [List.getD_eq_getElem?_getD, List.getD_eq_getElem?_getD,
    List.getElem?_eq_getElem (by rw [List.length_map]; exact h),
    List.getElem?_eq_getElem h]
  simp only [Option.getD_some, List.getElem_map]

theorem getD_take_lt {l : List Nat} {n i : Nat} (h1 : i < n) (d : Nat) :
    (l.take n).getD i d = l.getD i d := by
  rw [List.getD_eq_getElem?_getD, List.getD_eq_getElem?_getD, List.getElem?_take, if_pos h1]

theorem getD_indexOf_eq {l : List Nat} {a : Nat} (h : a ∈ l) (d : Nat) :
    l.getD (l.indexOf a) d = a := by
  have hlt := List.indexOf_lt_length.mpr h
  rw [List.getD_eq_getElem?_getD, List.getElem?_eq_getElem hlt]
  simp only [Option.getD_some]
  exact List.getElem_indexOf hlt

theorem mem_drop_of_indexOf_ge {l : List Nat} {a : Nat} {d : Nat} (h : a ∈ l)
    (hge : d ≤ l.indexOf a) : a ∈ l.drop d := by
  have hlt := List.indexOf_lt_length.mpr h
  have he : d + (l.indexOf a - d) = l.indexOf a := by omega
  have hsome : l[l.indexOf a]? = some a := by
    rw [List.getElem?_eq_getElem hlt, List.getElem_indexOf hlt]
  have h2 : (l.drop d)[l.indexOf a - d]? = some a := by
    rw [List.getElem?_drop, he, hsome]
  exact List.getElem?_mem h2

/-- In the seen case the head-block label entry plus the lower blocks'
maxima recover the last letter. -/
theorem seen_label_eq {w : List Nat} (hw : isPackedWord w) (h2 : 2 ≤ w.length)
    (hgd : globalDescents w false = [])
    (hb : w.getLastD 0 ∈ w.dropLast) :
    ((globalDescentsFactorization w.dropLast).headD []).getD
        (w.indexOf (w.getLastD 0)) 0 +
      (((globalDescentsFactorization w.dropLast).drop 1).map maxL).sum =
      w.getLastD 0 := by
  have hne : w ≠ [] := by
    rw [← List.length_pos]
    omega
  obtain ⟨hwlp, hwlmax⟩ := dropLast_packed_of_seen hw hb
  have hwllen : w.dropLast.length = w.length - 1 := List.length_dropLast w
  have hwl_ne : w.dropLast ≠ [] := by
    rw [← List.length_pos]
    omega
  have hidx : w.indexOf (w.getLastD 0) = w.dropLast.indexOf (w.getLastD 0) := by
    have h1 : (w.dropLast ++ [w.getLastD 0]).indexOf (w.getLastD 0) =
        w.dropLast.indexOf (w.getLastD 0) := List.indexOf_append_of_mem hb
    rw [dropLast_append_getLastD hne] at h1
    exact h1
  have hidxlt : w.dropLast.indexOf (w.getLastD 0) < w.dropLast.length :=
    List.indexOf_lt_length.mpr hb
  rw [hidx]
  cases hgdwl : globalDescents w.dropLast false with
  | nil =>
    rw [factorization_no_descent hwlp hwl_ne hgdwl]
    simp only [List.headD_cons, List.drop_succ_cons, List.drop_nil, List.map_nil,
      List.sum_nil, Nat.add_zero]
    exact getD_indexOf_eq hb 0
  | cons d1 ds =>
    have hd1mem : d1 ∈ globalDescents w.dropLast false := by
      rw [hgdwl]
      exact List.mem_cons_self _ _
    obtain ⟨hd0, hdn, hlt⟩ := mem_globalDescents.mp hd1mem
    obtain ⟨hvp, hMu, hpacku, hMpu, hback⟩ := split_block_facts hwlp hd0 hdn hlt
    have hvne : w.dropLast.drop d1 ≠ [] := by
      rw [← List.length_pos, List.length_drop]
      omega
    obtain ⟨x0, hx0mem, hx0le⟩ := no_descent_last_bound hgd hd1mem
    have hmvlt : maxL (w.dropLast.drop d1) < w.getLastD 0 := by
      have h1 := hlt x0 hx0mem _ (maxL_mem hvne)
      omega
    have hidxd1 : w.dropLast.indexOf (w.getLastD 0) < d1 := by
      by_contra hcon
      push_neg at hcon
      have hmem2 : w.getLastD 0 ∈ w.dropLast.drop d1 := mem_drop_of_indexOf_ge hb hcon
      have := le_maxL hmem2
      omega
    rw [factorization_cons hgdwl]
    rw [List.headD_cons, List.drop_succ_cons, List.drop_zero]
    have hsumv := (factorization_props hvp hvne).2.2.1
    rw [hsumv, hpacku]
    rw [getD_map_lt (by rw [List.length_take]; omega) 0 0, getD_take_lt hidxd1 0,
      getD_indexOf_eq hb 0]
    omega

theorem indexOf_eq_length_of_not_mem {l : List Nat} {a : Nat} (h : a ∉ l) :
    l.indexOf a = l.length := by
  induction l with
  | nil => rfl
  | cons b t ih =>
    have hab : a ≠ b ∧ a ∉ t := by simpa [List.mem_cons, not_or] using h
    have hbeq : (b == a) = false := beq_eq_false_iff_ne.mpr (Ne.symm hab.1)
    rw [List.indexOf_cons, hbeq, cond_false, ih hab.2, List.length_cons]

/-- In the unseen lower-letter case the head-block label entry (at the
index of `l-1`), plus one, plus the lower blocks' maxima recover the last
letter. -/
theorem new_lt_label_eq {w : List Nat} (hw : isPackedWord w) (h2 : 2 ≤ w.length)
    (hgd : globalDescents w false = [])
    (hb : w.getLastD 0 ∉ w.dropLast) (hm : w.getLastD 0 ≠ maxL w) :
    ((globalDescentsFactorization (pack w.dropLast)).headD []).getD
        ((w.take ((globalDescentsFactorization (pack w.dropLast)).headD []).length).indexOf
          (w.getLastD 0 - 1)) 0 + 1 +
      (((globalDescentsFactorization (pack w.dropLast)).drop 1).map maxL).sum =
      w.getLastD 0 := by
  have hne : w ≠ [] := by
    rw [← List.length_pos]
    omega
  obtain ⟨⟨hl1, hlm⟩, hwl_mem, hwlmax, hpack, hplmax⟩ := dropLast_new_lt_facts hw h2 hb hm
  have hwllen : w.dropLast.length = w.length - 1 := List.length_dropLast w
  have hwl_ne : w.dropLast ≠ [] := by
    rw [← List.length_pos]
    omega
  have hwlpos : ∀ x ∈ w.dropLast, 1 ≤ x := fun x hx => ((hwl_mem x).mp hx).1
  have hmono : ∀ x ∈ w.dropLast, ∀ y ∈ w.dropLast,
      ((if x < w.getLastD 0 then x else x - 1) < (if y < w.getLastD 0 then y else y - 1) ↔
        x < y) := by
    intro x hx y hy
    obtain ⟨hx1, _, hx3⟩ := (hwl_mem x).mp hx
    obtain ⟨hy1, _, hy3⟩ := (hwl_mem y).mp hy
    split_ifs <;> omega
  have hgdpl : globalDescents (pack w.dropLast) false = globalDescents w.dropLast false := by
    rw [hpack]
    exact globalDescents_map_mono hmono
  have hplp : isPackedWord (pack w.dropLast) := isPackedWord_pack _
  have hpl_ne : pack w.dropLast ≠ [] := by
    rw [← List.length_pos, pack_length]
    omega
  cases hgdwl : globalDescents w.dropLast false with
  | nil =>
    have hgdpl2 : globalDescents (pack w.dropLast) false = [] := by rw [hgdpl, hgdwl]
    have hfact : globalDescentsFactorization (pack w.dropLast) = [pack w.dropLast] :=
      factorization_no_descent hplp hpl_ne hgdpl2
    rw [hfact]
    simp only [List.headD_cons, List.drop_succ_cons, List.drop_nil, List.map_nil,
      List.sum_nil, Nat.add_zero]
    have htake : w.take (pack w.dropLast).length = w.dropLast := by
      rw [pack_length]
      have h1 := List.take_left w.dropLast [w.getLastD 0]
      rw [dropLast_append_getLastD hne] at h1
      exact h1
    rw [htake]
    by_cases hl2 : 2 ≤ w.getLastD 0
    · have hmem : w.getLastD 0 - 1 ∈ w.dropLast :=
        (hwl_mem _).mpr ⟨by omega, by omega, by omega⟩
      have hidxlt : w.dropLast.indexOf (w.getLastD 0 - 1) < w.dropLast.length :=
        List.indexOf_lt_length.mpr hmem
      rw [hpack, getD_map_lt hidxlt 0 0, getD_indexOf_eq hmem 0, if_pos (by omega)]
      omega
    · have hnotmem : w.getLastD 0 - 1 ∉ w.dropLast := by
        intro hc
        have := hwlpos _ hc
        omega
      have hgetd : (pack w.dropLast).getD (w.dropLast.indexOf (w.getLastD 0 - 1)) 0 = 0 := by
        apply List.getD_eq_default
        rw [pack_length, indexOf_eq_length_of_not_mem hnotmem]
      rw [hgetd]
      omega
  | cons d1 ds =>
    have hgdpl2 : globalDescents (pack w.dropLast) false = d1 :: ds := by rw [hgdpl, hgdwl]
    have hd1mem : d1 ∈ globalDescents w.dropLast false := by
      rw [hgdwl]
      exact List.mem_cons_self _ _
    obtain ⟨hd0, hdn, hltwl⟩ := mem_globalDescents.mp hd1mem
    have hvne : w.dropLast.drop d1 ≠ [] := by
      rw [← List.length_pos, List.length_drop]
      omega
    obtain ⟨x0, hx0mem, hx0le⟩ := no_descent_last_bound hgd hd1mem
    have hx0ne : x0 ≠ w.getLastD 0 := ((hwl_mem x0).mp (List.take_subset _ _ hx0mem)).2.2
    have hmvlt : maxL (w.dropLast.drop d1) < w.getLastD 0 - 1 := by
      have h1 := hltwl x0 hx0mem _ (maxL_mem hvne)
      omega
    have hmvpos : 1 ≤ maxL (w.dropLast.drop d1) := by
      obtain ⟨y, hy⟩ := List.exists_mem_of_ne_nil _ hvne
      have h1 := hwlpos y (List.drop_subset _ _ hy)
      have h2y := le_maxL hy
      omega
    have hd1mem2 : d1 ∈ globalDescents (pack w.dropLast) false := by
      rw [hgdpl2]
      exact List.mem_cons_self _ _
    obtain ⟨hd0b, hdnb, hltpl⟩ := mem_globalDescents.mp hd1mem2
    obtain ⟨hvpb, hMub, hpackub, hMpub, hbackb⟩ := split_block_facts hplp hd0b hdnb hltpl
    have hdropid : (pack w.dropLast).drop d1 = w.dropLast.drop d1 := by
      rw [hpack, ← List.map_drop]
      refine (List.map_congr_left ?_).trans (List.map_id _)
      intro y hy
      have hylt : y < w.getLastD 0 := by
        have := le_maxL hy
        omega
      simp only [id_eq]
      rw [if_pos hylt]
    have hvne2 : (pack w.dropLast).drop d1 ≠ [] := by
      rw [hdropid]
      exact hvne
    rw [factorization_cons hgdpl2]
    rw [List.headD_cons, List.drop_succ_cons, List.drop_zero]
    have hsumv := (factorization_props hvpb hvne2).2.2.1
    rw [hsumv, hdropid]
    have hheadlen : (pack ((pack w.dropLast).take d1)).length = d1 := by
      rw [pack_length, List.length_take, pack_length]
      omega
    rw [hheadlen]
    have htake : w.take d1 = w.dropLast.take d1 := take_dropLast_eq hne (by omega)
    rw [htake]
    have hl1mem : w.getLastD 0 - 1 ∈ w.dropLast :=
      (hwl_mem _).mpr ⟨by omega, by omega, by omega⟩
    have hl1memtake : w.getLastD 0 - 1 ∈ w.dropLast.take d1 := by
      have hsplit2 : w.getLastD 0 - 1 ∈ w.dropLast.take d1 ++ w.dropLast.drop d1 := by
        rw [List.take_append_drop]
        exact hl1mem
      rcases List.mem_append.mp hsplit2 with h | h
      · exact h
      · exfalso
        have := le_maxL h
        omega
    have hidxlt : (w.dropLast.take d1).indexOf (w.getLastD 0 - 1) <
        (w.dropLast.take d1).length := List.indexOf_lt_length.mpr hl1memtake
    rw [hpackub, hdropid]
    have htakemap : (pack w.dropLast).take d1 = (w.dropLast.take d1).map
        (fun x => if x < w.getLastD 0 then x else x - 1) := by
      rw [hpack, List.map_take]
    rw [htakemap]
    rw [getD_map_lt (by rw [List.length_map]; exact hidxlt) 0 0,
      getD_map_lt hidxlt 0 0, getD_indexOf_eq hl1memtake 0, if_pos (by omega)]
    omega

/-! ## The left single-tree roundtrip -/

/-- Main induction for the left codec: for a nonempty packed word with no
global descents, the encoded tree has false-count equal to the word's
maximum and decodes back to the word (for any sufficient fuels). -/
theorem treeL_roundtrip_aux : ∀ (n : Nat), ∀ (w : List Nat), w.length ≤ n →
    isPackedWord w → w ≠ [] → globalDescents w false = [] →
    ∀ ef : Nat, w.length ≤ ef →
      nb_false (pwToLTreeLF ef w) = maxL w ∧
      ∀ df : Nat, (pwToLTreeLF ef w).size ≤ df →
        treeDecLF df (pwToLTreeLF ef w) = Except.ok w := by
  intro n
  induction n with
  | zero =>
    intro w hlen _ hne _ _ _
    exact absurd (List.length_pos.mpr hne) (by omega)
  | succ n ih =>
    intro w hlen hw hne hgd ef hef
    have hlpos : 0 < w.length := List.length_pos.mpr hne
    obtain ⟨e, rfl⟩ : ∃ e, ef = e + 1 := ⟨ef - 1, by omega⟩
    have hiftrue : (if (true : Bool) = true then (1 : Nat) else 0) = 1 := rfl
    have hiffalse : (if (false : Bool) = true then (1 : Nat) else 0) = 0 := rfl
    by_cases h2 : w.length ≤ 1
    · have h1 : w.length = 1 := by omega
      have hw1 : w = [1] := singleton_packed hw h1
      subst hw1
      have henc : pwToLTreeLF (e + 1) [1] = .node [] (0, (1, false)) := by
        simp only [pwToLTreeLF]
        rw [if_pos (by simp)]
      rw [henc]
      refine ⟨?_, ?_⟩
      · rw [nb_false_node]
        simp [maxL]
      · intro df hdf
        rw [size_node] at hdf
        simp only [List.map_nil, List.sum_nil] at hdf
        obtain ⟨d, rfl⟩ : ∃ d, df = d + 1 := ⟨df - 1, by omega⟩
        rw [treeDecLF_succ_nil]
        rfl
    · have h2b : 2 ≤ w.length := by omega
      have hwllen : w.dropLast.length = w.length - 1 := List.length_dropLast w
      have hwl_ne : w.dropLast ≠ [] := by
        rw [← List.length_pos]
        omega
      have hmpos : 1 ≤ maxL w := by
        obtain ⟨x, hx⟩ := List.exists_mem_of_ne_nil _ hne
        have hx1 := (isPackedWord_iff.mp hw).1 x hx
        have hx2 := le_maxL hx
        omega
      have hplpacked : isPackedWord (pack w.dropLast) := isPackedWord_pack _
      have hpl_ne : pack w.dropLast ≠ [] := by
        rw [← List.length_pos, pack_length]
        omega
      obtain ⟨hb_all, hb_len, hb_max, hb_fold⟩ := factorization_props hplpacked hpl_ne
      have hg_ne : globalDescentsFactorization (pack w.dropLast) ≠ [] := by
        intro h
        rw [h] at hb_fold
        exact hpl_ne hb_fold.symm
      have hdec_blocks : ∀ b ∈ globalDescentsFactorization (pack w.dropLast),
          nb_false (pwToLTreeLF e b) = maxL b ∧
          ∀ df : Nat, (pwToLTreeLF e b).size ≤ df →
            treeDecLF df (pwToLTreeLF e b) = Except.ok b := by
        intro b hb
        obtain ⟨hbp, hbne, hbgd⟩ := hb_all b hb
        have hble : b.length ≤ (pack w.dropLast).length := by
          have h1 := le_sum_map List.length hb
          rw [hb_len] at h1
          exact h1
        rw [pack_length] at hble
        exact ih b (by omega) hbp hbne hbgd e (by omega)
      have hnbsum : (((globalDescentsFactorization (pack w.dropLast)).reverse.map
          (pwToLTreeLF e)).map nb_false).sum =
          ((globalDescentsFactorization (pack w.dropLast)).map maxL).sum :=
        sum_nb_false_reverse_map (fun b hb => (hdec_blocks b hb).1)
      by_cases hbmem : w.getLastD 0 ∈ w.dropLast
      · -- seen case
        obtain ⟨hwlp, hwlmax⟩ := dropLast_packed_of_seen hw hbmem
        have hpl_eq : pack w.dropLast = w.dropLast := pack_of_packed hwlp
        rw [pwToLTreeLF_seen e h2 hbmem]
        refine ⟨?_, ?_⟩
        · rw [nb_false_node, hnbsum, hb_max, hiftrue, hpl_eq, hwlmax]
          omega
        · intro df hdf
          rw [decodeL_node_eq hg_ne (fun b hb => (hdec_blocks b hb).2) _ _ _ hdf, hb_fold,
            nb_false_l_pred _ (fun b hb => (hdec_blocks b hb).1), hpl_eq,
            seen_label_eq hw h2b hgd hbmem, upgrade_last_seen hne]
      · by_cases hmeq : w.getLastD 0 = maxL w
        · -- new maximal letter
          obtain ⟨hwlp, hwlmax⟩ := dropLast_packed_of_new_max hw h2b hbmem hmeq
          have hpl_eq : pack w.dropLast = w.dropLast := pack_of_packed hwlp
          rw [pwToLTreeLF_new_max e h2 hbmem hmeq]
          refine ⟨?_, ?_⟩
          · rw [nb_false_node, hnbsum, hb_max, hiffalse, hpl_eq, hwlmax]
            omega
          · intro df hdf
            rw [decodeL_node_eq hg_ne (fun b hb => (hdec_blocks b hb).2) _ _ _ hdf, hb_fold,
              nb_false_l_all _ (fun b hb => (hdec_blocks b hb).1), hb_max, hpl_eq, hwlmax]
            have hval : 1 + (maxL w - 1) = w.getLastD 0 := by
              rw [hmeq]
              omega
            rw [hval, upgrade_last_new_max hw h2b hbmem hmeq]
        · -- new lower letter
          obtain ⟨⟨hl1, hlm⟩, hwl_mem, hwlmax, hpackm, hplmax⟩ :=
            dropLast_new_lt_facts hw h2b hbmem hmeq
          rw [pwToLTreeLF_new_lt e h2 hbmem hmeq]
          refine ⟨?_, ?_⟩
          · rw [nb_false_node, hnbsum, hb_max, hiffalse, hplmax]
            omega
          · intro df hdf
            rw [decodeL_node_eq hg_ne (fun b hb => (hdec_blocks b hb).2) _ _ _ hdf, hb_fold,
              nb_false_l_pred _ (fun b hb => (hdec_blocks b hb).1),
              new_lt_label_eq hw h2b hgd hbmem hmeq,
              upgrade_last_new_lt hw h2b hbmem hmeq]

/-! ## C2: the left labelled-forest codec round-trips -/

/-- C2: for every valid packed word `w`, decoding the left labelled-forest
encoding returns `w`:
`labelled_forest_to_packed_word_left(packed_word_to_labelled_forest_left(w)) == w`;
in particular this holds for every packed word of size 5. -/
theorem C2_left_codec_roundtrip (w : List Nat) (hw : isPackedWord w) :
    labelled_forest_to_packed_word_left (packed_word_to_labelled_forest_left w) =
      Except.ok w := by
  by_cases hne : w = []
  · subst hne
    rfl
  · obtain ⟨hb_all, hb_len, hb_max, hb_fold⟩ := factorization_props hw hne
    have hg_ne : globalDescentsFactorization w ≠ [] := by
      intro h
      rw [h] at hb_fold
      exact hne hb_fold.symm
    have henc : packed_word_to_labelled_forest_left w =
        (globalDescentsFactorization w).reverse.map (fun b => pwToLTreeLF b.length b) := by
      unfold packed_word_to_labelled_forest_left packed_word_to_labelled_tree_left
      rw [if_neg hne]
    rw [henc]
    unfold labelled_forest_to_packed_word_left
    have hdecb : ∀ b ∈ globalDescentsFactorization w, ∀ df : Nat,
        (pwToLTreeLF b.length b).size ≤ df →
        treeDecLF df (pwToLTreeLF b.length b) = Except.ok b := by
      intro b hb
      obtain ⟨hbp, hbne, hbgd⟩ := hb_all b hb
      exact (treeL_roundtrip_aux b.length b (le_refl _) hbp hbne hbgd b.length (le_refl _)).2
    have hchild : ∀ b ∈ globalDescentsFactorization w,
        treeDecLF ((((globalDescentsFactorization w).reverse.map
          (fun b => pwToLTreeLF b.length b)).map LTree.size).sum)
          (pwToLTreeLF b.length b) = Except.ok b := by
      intro b hb
      exact hdecb b hb _
        (le_sum_map LTree.size (List.mem_map_of_mem _ (List.mem_reverse.mpr hb)))
    cases hgw : globalDescentsFactorization w with
    | nil => exact absurd hgw hg_ne
    | cons b1 grest =>
      rw [hgw] at hb_fold hchild
      cases grest with
      | nil =>
        have hb1 : b1 = w := by
          simpa [l_shifted_concat] using hb_fold
        simp only [List.reverse_cons, List.reverse_nil, List.nil_append, List.map_cons,
          List.map_nil] at hchild ⊢
        rw [forestDecLF_single]
        rw [hb1] at hchild ⊢
        exact hchild w (List.mem_cons_self _ _)
      | cons b2 grest2 =>
        cases hcs : (b1 :: b2 :: grest2).reverse.map (fun b => pwToLTreeLF b.length b) with
        | nil =>
          exfalso
          have hlen := congrArg List.length hcs
          simp only [List.length_map, List.length_reverse, List.length_cons,
            List.length_nil] at hlen
          omega
        | cons c1 cs2 =>
          cases cs2 with
          | nil =>
            exfalso
            have hlen := congrArg List.length hcs
            simp only [List.length_map, List.length_reverse, List.length_cons,
              List.length_nil] at hlen
            omega
          | cons c2 cs3 =>
            rw [hcs] at hchild
            rw [forestDecLF_multi]
            have hrev : ((b1 :: b2 :: grest2).reverse.map
                (fun b => pwToLTreeLF b.length b)).reverse =
                (b1 :: b2 :: grest2).map (fun b => pwToLTreeLF b.length b) := by
              simp
            rw [hcs] at hrev
            have hmapM := mapM_treeDecL_enc (fun b => pwToLTreeLF b.length b)
              (b1 :: b2 :: grest2) hchild
            rw [hrev, hmapM, bind_ok, hb_fold]

/-- C2 witness: the concrete size-5 packed word `[1,2,1,3,2]` is valid and
round-trips exactly through the left codec. -/
theorem C2_left_codec_roundtrip_witness :
    isPackedWord [1, 2, 1, 3, 2] ∧
    labelled_forest_to_packed_word_left (packed_word_to_labelled_forest_left
      [1, 2, 1, 3, 2]) = Except.ok [1, 2, 1, 3, 2] :=
  ⟨by decide, C2_left_codec_roundtrip _ (by decide)⟩

end PackedWords
